import Mathlib

/-! git-get: URL normalisation, path derivation and the repository handle.

A shallow embedding of `pkg/url.go` and `pkg/repo.go`.

Conventions:

* A Go `string` is a sequence of bytes.  It is modelled as `List Char`, one `Char`
  per byte (the byte `b` is the character with code `b`), so that ASCII text reads
  literally: `"ssh".toList`.  The functions below compare bytes with ASCII
  constants only, as the Go code does; the one place where a byte is computed,
  the decoding of `%XY`, yields the character with code `XY`.
* A Go function returning `(T, error)` is modelled as `Except Error T`; a function
  returning only `error` as `Option Error` (`none` is `nil`).
* The Go standard library functions the package calls (`strings.Split`,
  `strings.TrimSuffix`, `strings.ReplaceAll`, `path.Join`, `path.Clean`,
  `net/url.Parse`) are transcribed from the Go sources of the standard library,
  function by function, and the regular expression `scpSyntax` is transcribed
  as the matcher it denotes.  Every function is total and defined by structural
  recursion.
* The git engine (`git2go`) and the status loader (`loadStatus`, defined in a
  file of the package that is not part of this development) are parameters.
-/

namespace GitGet

/-! ## Errors (`github.com/pkg/errors`, `net/url`) -/

/-- The inner errors `net/url.Parse` can report. -/
inductive UrlErr where
  | controlChar
  | emptyUrl
  | invalidRequestURI
  | missingScheme
  | colonInFirstSegment
  | missingBracket
  | invalidPort (port : List Char)
  | invalidUserinfo
  | escape (s : List Char)
  | invalidHost (s : List Char)
  deriving DecidableEq

/-- Error values: `errors.New msg`, `errors.Wrap cause msg`, the `*url.Error`
returned by `url.Parse` (operation "parse", the offending text, the inner error),
and errors raised by the git engine, identified by a code. -/
inductive Error where
  | new (msg : String)
  | wrap (cause : Error) (msg : String)
  | url (text : List Char) (inner : UrlErr)
  | engine (code : Int)
  deriving DecidableEq

/-- Equality of results is decidable when equality of errors and of values is. -/
instance instDecidableEqExcept {ε α : Type} [DecidableEq ε] [DecidableEq α] :
    DecidableEq (Except ε α)
  | .ok a, .ok b => if h : a = b then isTrue (by rw [h]) else isFalse (fun e => h (by cases e; rfl))
  | .error a, .error b =>
    if h : a = b then isTrue (by rw [h]) else isFalse (fun e => h (by cases e; rfl))
  | .ok _, .error _ => isFalse (fun e => by cases e)
  | .error _, .ok _ => isFalse (fun e => by cases e)

/-! ## `strings` -/

/-- `strings.HasPrefix`. -/
def HasPrefix (s pre : List Char) : Bool := pre.isPrefixOf s

/-- `strings.HasSuffix`. -/
def HasSuffix (s suf : List Char) : Bool := suf.isSuffixOf s

/-- `strings.Contains` for a one-byte needle, `strings.IndexByte(s, c) >= 0`. -/
def ContainsByte (s : List Char) (c : Char) : Bool := s.contains c

/-- `strings.TrimSuffix`: `s` without the trailing `suffix`, or `s` itself when
`s` does not end with `suffix`. -/
def TrimSuffix (s suffix : List Char) : List Char :=
  if HasSuffix s suffix then s.take (s.length - suffix.length) else s

/-- The loop of `strings.Split(s, sep)` for a non-empty `sep`: `skip` counts the
bytes of a separator just found that are still to be stepped over. -/
def splitFrom (sep : List Char) : Nat → List Char → List (List Char)
  | _, [] => [[]]
  | skip + 1, _ :: rest => splitFrom sep skip rest
  | 0, c :: rest =>
    if sep.isPrefixOf (c :: rest) then
      [] :: splitFrom sep (sep.length - 1) rest
    else
      match splitFrom sep 0 rest with
      | [] => [[c]]
      | seg :: segs => (c :: seg) :: segs

/-- `strings.Split(s, sep)` for a non-empty separator (the only use in the
package is `sep = ":"`): the pieces of `s` between the occurrences of `sep`. -/
def Split (s sep : List Char) : List (List Char) := splitFrom sep 0 s

/-- The loop of `strings.Replace(s, old, new, -1)` for a non-empty `old`. -/
def replaceFrom (old new : List Char) : Nat → List Char → List Char
  | _, [] => []
  | skip + 1, _ :: rest => replaceFrom old new skip rest
  | 0, c :: rest =>
    if old.isPrefixOf (c :: rest) then
      new ++ replaceFrom old new (old.length - 1) rest
    else
      c :: replaceFrom old new 0 rest

/-- `strings.ReplaceAll(s, old, new)`.  `old == new` returns `s`; otherwise every
non-overlapping occurrence of `old`, left to right, is replaced by `new`.  The
branch of `strings.Replace` for an empty `old` (insertion at every rune boundary)
is not needed by the package, whose only call has `old = "~"`, and is not
modelled: the definition is to be read for `old ≠ ""`. -/
def ReplaceAll (s old new : List Char) : List Char :=
  if old = new then s else replaceFrom old new 0 s

/-- `strings.Join(elems, sep)`. -/
def stringsJoin : List (List Char) → List Char → List Char
  | [], _ => []
  | [e], _ => e
  | e :: rest, sep => e ++ sep ++ stringsJoin rest sep

/-! ## `path` -/

/-- The inner loop of the `..` case of `path.Clean`:
`for out.w > dotdot && out.index(out.w) != '/' { out.w-- }`.
The buffer is given reversed (last written byte first); `last` is the byte at
index `out.w`, the one removed by the previous `out.w--`. -/
def backtrackLoop (dotdot : Nat) : Char → List Char → List Char
  | _, [] => []
  | last, c :: revOut =>
    if (c :: revOut).length > dotdot ∧ last ≠ '/' then
      backtrackLoop dotdot c revOut
    else
      c :: revOut

/-- The "can backtrack" branch of `path.Clean`: `out.w--` followed by
`backtrackLoop`. -/
def backtrack (dotdot : Nat) (out : List Char) : List Char :=
  match out.reverse with
  | [] => []
  | last :: revOut => (backtrackLoop dotdot last revOut).reverse

/-- The main loop `for r < n { switch ... }` of `path.Clean`.  `out` is the
content of the output buffer (`out.w = out.length`), `dotdot` the index where
`..` must stop, and the last argument is `path[r:]`.  With `copying = true` the
function is inside the inner loop of the default case,
`for ; r < n && path[r] != '/'; r++ { out.append(path[r]) }`; that loop ends at
a `/`, which the next iteration of the main loop steps over. -/
def cleanLoop (rooted : Bool) : Bool → List Char → Nat → List Char → List Char
  | _, out, _, [] => out
  | true, out, dotdot, c :: rest =>
    if c = '/' then cleanLoop rooted false out dotdot rest
    else cleanLoop rooted true (out ++ [c]) dotdot rest
  | false, out, dotdot, c :: rest =>
    if c = '/' then
      -- empty path element
      cleanLoop rooted false out dotdot rest
    else if c = '.' ∧ (rest = [] ∨ rest.head? = some '/') then
      -- . element
      cleanLoop rooted false out dotdot rest
    else
      match rest with
      | d :: rest2 =>
        if c = '.' ∧ d = '.' ∧ (rest2 = [] ∨ rest2.head? = some '/') then
          -- .. element: remove to last /
          if out.length > dotdot then
            cleanLoop rooted false (backtrack dotdot out) dotdot rest2
          else if !rooted then
            let out1 := if out.length > 0 then out ++ ['/'] else out
            let out2 := out1 ++ ['.', '.']
            cleanLoop rooted false out2 out2.length rest2
          else
            cleanLoop rooted false out dotdot rest2
        else
          -- real path element: add slash if needed, copy element
          let out1 :=
            if (rooted ∧ out.length ≠ 1) ∨ (!rooted ∧ out.length ≠ 0) then out ++ ['/']
            else out
          cleanLoop rooted true (out1 ++ [c]) dotdot (d :: rest2)
      | [] =>
        let out1 :=
          if (rooted ∧ out.length ≠ 1) ∨ (!rooted ∧ out.length ≠ 0) then out ++ ['/']
          else out
        cleanLoop rooted true (out1 ++ [c]) dotdot []

/-- `path.Clean`. -/
def Clean (path : List Char) : List Char :=
  match path with
  | [] => ['.']
  | c :: rest =>
    let rooted : Bool := c = '/'
    let out :=
      if rooted then cleanLoop true false ['/'] 1 rest
      else cleanLoop false false [] 0 (c :: rest)
    if out.length = 0 then ['.'] else out

/-- `path.Join`: the elements from the first non-empty one on, joined with `/`
and cleaned; the empty string when every element is empty. -/
def Join : List (List Char) → List Char
  | [] => []
  | e :: rest => if e ≠ [] then Clean (stringsJoin (e :: rest) ['/']) else Join rest

/-! ## `net/url` -/

/-- `url.Userinfo`. -/
structure Userinfo where
  username : List Char
  password : List Char
  passwordSet : Bool
  deriving DecidableEq

/-- `url.User(username)`: a user name, no password. -/
def User (username : List Char) : Userinfo :=
  { username := username, password := [], passwordSet := false }

/-- `url.UserPassword(username, password)`. -/
def UserPassword (username password : List Char) : Userinfo :=
  { username := username, password := password, passwordSet := true }

/-- `url.URL`.  `User = none` is the nil pointer.  The fields `RawPath` and
`RawFragment`, encoding hints that this package never reads, are left out. -/
structure URL where
  Scheme : List Char := []
  Opaque : List Char := []
  User : Option Userinfo := none
  Host : List Char := []
  Path : List Char := []
  ForceQuery : Bool := false
  RawQuery : List Char := []
  Fragment : List Char := []
  deriving DecidableEq

namespace urlpkg

/-- The `encoding` modes of `net/url`. -/
inductive Encoding where
  | encodePath
  | encodePathSegment
  | encodeHost
  | encodeZone
  | encodeUserPassword
  | encodeQueryComponent
  | encodeFragment
  deriving DecidableEq

/-- The test `'a' <= c && c <= 'z' || 'A' <= c && c <= 'Z'`. -/
def isLetter (c : Char) : Bool :=
  ('a' ≤ c ∧ c ≤ 'z') ∨ ('A' ≤ c ∧ c ≤ 'Z')

/-- The test `'0' <= c && c <= '9'`. -/
def isDigit (c : Char) : Bool := '0' ≤ c ∧ c ≤ '9'

/-- `ishex`. -/
def ishex (c : Char) : Bool :=
  ('0' ≤ c ∧ c ≤ '9') ∨ ('a' ≤ c ∧ c ≤ 'f') ∨ ('A' ≤ c ∧ c ≤ 'F')

/-- `unhex`. -/
def unhex (c : Char) : Nat :=
  if '0' ≤ c ∧ c ≤ '9' then c.toNat - '0'.toNat
  else if 'a' ≤ c ∧ c ≤ 'f' then c.toNat - 'a'.toNat + 10
  else if 'A' ≤ c ∧ c ≤ 'F' then c.toNat - 'A'.toNat + 10
  else 0

/-- `shouldEscape(c, encodeHost)`: alphanumerics, the sub-delimiters and
brackets allowed in a host, and the unreserved marks need no escaping; every
other byte does. -/
def shouldEscapeHost (c : Char) : Bool :=
  if isLetter c ∨ isDigit c then false
  else if c ∈ ['!', '$', '&', '\'', '(', ')', '*', '+', ',', ';', '=', ':', '[', ']',
      '<', '>', '"'] then false
  else if c ∈ ['-', '_', '.', '~'] then false
  else true

/-- `stringContainsCTLByte`: some byte is below `' '` or is `0x7f`. -/
def stringContainsCTLByte (s : List Char) : Bool :=
  s.any fun b => b < ' ' ∨ b = Char.ofNat 0x7f

/-- The first loop of `unescape`, which checks that every `%` starts a
well-formed escape allowed in `mode` and that a host has no byte that would
need escaping; `none` when the loop finds nothing wrong. -/
def unescapeCheck (mode : Encoding) : List Char → Option UrlErr
  | [] => none
  | c :: rest =>
    if c = '%' then
      match rest with
      | a :: b :: rest2 =>
        if !ishex a ∨ !ishex b then some (.escape [c, a, b])
        else if mode = .encodeHost ∧ unhex a < 8 ∧ [c, a, b] ≠ ['%', '2', '5'] then
          some (.escape [c, a, b])
        else if mode = .encodeZone ∧ [c, a, b] ≠ ['%', '2', '5'] ∧
            Char.ofNat (unhex a * 16 + unhex b) ≠ ' ' ∧
            shouldEscapeHost (Char.ofNat (unhex a * 16 + unhex b)) then
          some (.escape [c, a, b])
        else unescapeCheck mode rest2
      | _ => some (.escape (c :: rest))
    else if c = '+' then unescapeCheck mode rest
    else if (mode = .encodeHost ∨ mode = .encodeZone) ∧ c.toNat < 0x80 ∧ shouldEscapeHost c then
      some (.invalidHost [c])
    else unescapeCheck mode rest

/-- The second loop of `unescape`, which decodes: `%XY` becomes the byte `XY`,
`+` becomes a space in a query component, every other byte is copied. -/
def unescapeDecode (mode : Encoding) : List Char → List Char
  | [] => []
  | c :: rest =>
    if c = '%' then
      match rest with
      | a :: b :: rest2 => Char.ofNat (unhex a * 16 + unhex b) :: unescapeDecode mode rest2
      | _ => []
    else if c = '+' then
      (if mode = .encodeQueryComponent then ' ' else '+') :: unescapeDecode mode rest
    else c :: unescapeDecode mode rest

/-- `unescape(s, mode)`. -/
def unescape (s : List Char) (mode : Encoding) : Except UrlErr (List Char) :=
  match unescapeCheck mode s with
  | some e => .error e
  | none => .ok (unescapeDecode mode s)

/-- The loop of `getScheme`; `i` is the index of the head of the last argument
in `rawURL`. -/
def getSchemeFrom (rawURL : List Char) : Nat → List Char → Except UrlErr (List Char × List Char)
  | _, [] => .ok ([], rawURL)
  | i, c :: rest =>
    if isLetter c then getSchemeFrom rawURL (i + 1) rest
    else if isDigit c ∨ c = '+' ∨ c = '-' ∨ c = '.' then
      if i = 0 then .ok ([], rawURL) else getSchemeFrom rawURL (i + 1) rest
    else if c = ':' then
      if i = 0 then .error .missingScheme
      else .ok (rawURL.take i, rawURL.drop (i + 1))
    else .ok ([], rawURL)

/-- `getScheme(rawURL)`: `(scheme, rest)`. -/
def getScheme (rawURL : List Char) : Except UrlErr (List Char × List Char) :=
  getSchemeFrom rawURL 0 rawURL

/-- `split(s, sep, cutc)`: the two parts of `s` around the first `sep`; the
second part keeps `sep` unless `cutc`.  Without a `sep`, `(s, "")`. -/
def split (s : List Char) (sep : Char) (cutc : Bool) : List Char × List Char :=
  match s.dropWhile (· ≠ sep) with
  | [] => (s, [])
  | _ :: after => (s.takeWhile (· ≠ sep), if cutc then after else sep :: after)

/-- `strings.LastIndex(s, c)` for a one-byte needle; `none` is `-1`. -/
def LastIndexByte : List Char → Char → Option Nat
  | [], _ => none
  | x :: rest, c =>
    match LastIndexByte rest c with
    | some i => some (i + 1)
    | none => if x = c then some 0 else none

/-- `strings.Index(s, sub)`; `none` is `-1`. -/
def Index : List Char → List Char → Option Nat
  | [], sub => if sub = [] then some 0 else none
  | c :: rest, sub =>
    if sub.isPrefixOf (c :: rest) then some 0 else (Index rest sub).map (· + 1)

/-- `validOptionalPort`: empty, or a colon followed by digits only. -/
def validOptionalPort (port : List Char) : Bool :=
  match port with
  | [] => true
  | c :: digits => c = ':' ∧ digits.all fun b => !(b < '0' ∨ b > '9')

/-- `validUserinfo`. -/
def validUserinfo (s : List Char) : Bool :=
  s.all fun r => isLetter r ∨ isDigit r ∨
    r ∈ ['-', '.', '_', ':', '~', '!', '$', '&', '\'', '(', ')', '*', '+', ',', ';', '=', '%', '@']

/-- `parseHost`. -/
def parseHost (host : List Char) : Except UrlErr (List Char) :=
  if HasPrefix host ['['] then
    match LastIndexByte host ']' with
    | none => .error .missingBracket
    | some i =>
      let colonPort := host.drop (i + 1)
      if !validOptionalPort colonPort then .error (.invalidPort colonPort)
      else
        match Index (host.take i) ['%', '2', '5'] with
        | some zone => do
          let host1 ← unescape (host.take zone) .encodeHost
          let host2 ← unescape ((host.take i).drop zone) .encodeZone
          let host3 ← unescape (host.drop i) .encodeHost
          pure (host1 ++ host2 ++ host3)
        | none => unescape host .encodeHost
  else
    match LastIndexByte host ':' with
    | some i =>
      let colonPort := host.drop i
      if !validOptionalPort colonPort then .error (.invalidPort colonPort)
      else unescape host .encodeHost
    | none => unescape host .encodeHost

/-- `parseAuthority`: `(user, host)`. -/
def parseAuthority (authority : List Char) : Except UrlErr (Option Userinfo × List Char) :=
  match LastIndexByte authority '@' with
  | none => do
    let host ← parseHost authority
    pure (none, host)
  | some i => do
    let host ← parseHost (authority.drop (i + 1))
    let userinfo := authority.take i
    if !validUserinfo userinfo then .error .invalidUserinfo
    else if !ContainsByte userinfo ':' then do
      let userinfo ← unescape userinfo .encodeUserPassword
      pure (some (User userinfo), host)
    else do
      let username ← unescape (split userinfo ':' true).1 .encodeUserPassword
      let password ← unescape (split userinfo ':' true).2 .encodeUserPassword
      pure (some (UserPassword username password), host)

/-- `parse(rawURL, viaRequest)`, without the fragment. -/
def parse (rawURL : List Char) (viaRequest : Bool) : Except UrlErr URL :=
  if stringContainsCTLByte rawURL then .error .controlChar
  else if rawURL = [] ∧ viaRequest then .error .emptyUrl
  else if rawURL = ['*'] then .ok { Path := ['*'] }
  else do
    -- Split off possible leading "http:", "mailto:", etc.
    let (scheme, rest) ← getScheme rawURL
    let scheme := scheme.map Char.toLower
    let (rest, forceQuery, rawQuery) :=
      if HasSuffix rest ['?'] ∧ rest.count '?' = 1 then (rest.take (rest.length - 1), true, [])
      else ((split rest '?' true).1, false, (split rest '?' true).2)
    let url : URL := { Scheme := scheme, ForceQuery := forceQuery, RawQuery := rawQuery }
    if !HasPrefix rest ['/'] ∧ scheme ≠ [] then
      -- rootless paths are opaque
      .ok { url with Opaque := rest }
    else if !HasPrefix rest ['/'] ∧ viaRequest then .error .invalidRequestURI
    else if !HasPrefix rest ['/'] ∧ ContainsByte (split rest '/' true).1 ':' then
      -- first path segment has colon: not allowed in a relative URL
      .error .colonInFirstSegment
    else if (scheme ≠ [] ∨ (!viaRequest ∧ !HasPrefix rest ['/', '/', '/'])) ∧
        HasPrefix rest ['/', '/'] then do
      let authority := (split (rest.drop 2) '/' false).1
      let rest := (split (rest.drop 2) '/' false).2
      let (user, host) ← parseAuthority authority
      let path ← unescape rest .encodePath
      pure { url with User := user, Host := host, Path := path }
    else do
      let path ← unescape rest .encodePath
      pure { url with Path := path }

/-- `url.Parse(rawURL)`: the fragment is cut off at the first `#`, the rest is
parsed, then the fragment is unescaped.  Errors come back as a `*url.Error`. -/
def Parse (rawURL : List Char) : Except Error URL :=
  let u := (split rawURL '#' true).1
  let frag := (split rawURL '#' true).2
  match parse u false with
  | .error err => .error (.url u err)
  | .ok url =>
    if frag = [] then .ok url
    else
      match unescape frag .encodeFragment with
      | .error err => .error (.url rawURL err)
      | .ok fragment => .ok { url with Fragment := fragment }

end urlpkg

/-! ## `pkg/url.go` -/

/-- The class `[a-zA-Z0-9_]` of `scpSyntax`. -/
def isScpUserChar (c : Char) : Bool :=
  ('a' ≤ c ∧ c ≤ 'z') ∨ ('A' ≤ c ∧ c ≤ 'Z') ∨ ('0' ≤ c ∧ c ≤ '9') ∨ c = '_'

/-- The class `[a-zA-Z0-9._-]` of `scpSyntax`. -/
def isScpHostChar (c : Char) : Bool :=
  ('a' ≤ c ∧ c ≤ 'z') ∨ ('A' ≤ c ∧ c ≤ 'Z') ∨ ('0' ≤ c ∧ c ≤ '9') ∨
    c = '.' ∨ c = '_' ∨ c = '-'

/-- What `.` matches in a Go regular expression without the `s` flag: any
character but a line feed. -/
def isRegexDot (c : Char) : Bool := c ≠ '\n'

/-- The submatches `m[1]`, `m[2]`, `m[3]` of `scpSyntax`. -/
structure ScpMatch where
  user : List Char
  host : List Char
  path : List Char
  deriving DecidableEq

/-- `scpSyntax.FindStringSubmatch(rawURL)` for
`^([a-zA-Z0-9_]+)@([a-zA-Z0-9._-]+):(.*)$`; `none` is the nil slice.
The expression is anchored at both ends.  `@` is outside the first class and `:`
outside the second, so each `+` can only stop at the first byte outside its
class, which has to be the literal that follows; `(.*)$` then has to take the
whole remainder, which may hold no line feed. -/
def scpSyntax (rawURL : List Char) : Option ScpMatch :=
  let user := rawURL.takeWhile isScpUserChar
  match rawURL.dropWhile isScpUserChar with
  | c :: afterAt =>
    let host := afterAt.takeWhile isScpHostChar
    match afterAt.dropWhile isScpHostChar with
    | d :: path =>
      if c = '@' ∧ d = ':' ∧ user ≠ [] ∧ host ≠ [] ∧ path.all isRegexDot then
        some { user := user, host := host, path := path }
      else none
    | [] => none
  | [] => none

/-- `ParseURL` of `pkg/url.go`, with the generic URL parser it calls
(`urlpkg.Parse`) as a parameter. -/
def ParseURLWith (Parse : List Char → Except Error URL) (rawURL : List Char) :
    Except Error URL :=
  -- If rawURL matches the SCP-like syntax, convert it into a standard ssh URL.
  let parsed : Except Error URL :=
    match scpSyntax rawURL with
    | some m =>
      .ok { Scheme := "ssh".toList, User := some (User m.user), Host := m.host, Path := m.path }
    | none =>
      match Parse rawURL with
      | .error err => .error (.wrap err "Failed parsing URL")
      | .ok url => .ok url
  match parsed with
  | .error err => .error err
  | .ok url =>
    if url.Host = [] ∧ url.Path = [] then .error (.new "Parsed URL is empty")
    else
      let url := if url.Scheme = "git+ssh".toList then { url with Scheme := "ssh".toList } else url
      -- Default to "git" user when using ssh and no user is provided
      let url :=
        if url.Scheme = "ssh".toList ∧ url.User = none then
          { url with User := some (User "git".toList) }
        else url
      -- Default to https
      let url := if url.Scheme = [] then { url with Scheme := "https".toList } else url
      .ok url

/-- `ParseURL` of `pkg/url.go`. -/
def ParseURL (rawURL : List Char) : Except Error URL :=
  ParseURLWith urlpkg.Parse rawURL

/-- `URLToPath` of `pkg/url.go`. -/
def URLToPath (url : URL) : List Char :=
  -- Remove port numbers from host
  let repoHost := (Split url.Host ":".toList).headD []
  -- Remove trailing ".git" from repo name
  let repoPath := Join [repoHost, url.Path]
  let repoPath := TrimSuffix repoPath ".git".toList
  -- Remove tilde (~) char from username
  let repoPath := ReplaceAll repoPath "~".toList "".toList
  repoPath

/-! ## `pkg/repo.go` -/

/-- A call made to the git engine or to the status loader, as seen by an
observer of the engine. -/
inductive Call (Repository : Type) where
  | openRepository (path : List Char)
  | loadStatus (repo : Repository)
  | remotesList (repo : Repository)
  | remotesLookup (repo : Repository) (name : List Char)
  | remoteFetch (name : List Char)

/-- The collaborators of `pkg/repo.go`: `git.OpenRepository`, the status loader
`loadStatus`, `repo.Remotes.List`, `repo.Remotes.Lookup` and `remote.Fetch`,
each given by its outcome. -/
structure Engine (Repository RepoStatus Remote : Type) where
  OpenRepository : List Char → Except Error Repository
  loadStatus : Repository → Except Error RepoStatus
  RemotesList : Repository → Except Error (List (List Char))
  RemotesLookup : Repository → List Char → Except Error Remote
  RemoteFetch : Remote → Option Error

/-- The struct `Repo`: the engine's repository object and the status snapshot. -/
structure Repo (Repository RepoStatus : Type) where
  repo : Repository
  Status : RepoStatus

/-- What an operation yields, together with the calls it made, in order. -/
structure Outcome (Repository α : Type) where
  value : α
  calls : List (Call Repository)

section RepoOps

variable {Repository RepoStatus Remote : Type}

/-- `OpenRepo(path)`: the handle or the error. -/
def OpenRepo (E : Engine Repository RepoStatus Remote) (path : List Char) :
    Outcome Repository (Except Error (Repo Repository RepoStatus)) :=
  match E.OpenRepository path with
  | .error err =>
    { value := .error (.wrap err "Failed opening repo"), calls := [.openRepository path] }
  | .ok r =>
    match E.loadStatus r with
    | .error err => { value := .error err, calls := [.openRepository path, .loadStatus r] }
    | .ok repoStatus =>
      { value := .ok { repo := r, Status := repoStatus },
        calls := [.openRepository path, .loadStatus r] }

/-- `(r *Repo) Reload()`: the handle after the call and the error returned. -/
def Reload (E : Engine Repository RepoStatus Remote) (r : Repo Repository RepoStatus) :
    Outcome Repository (Repo Repository RepoStatus × Option Error) :=
  match E.loadStatus r.repo with
  | .error err => { value := (r, some err), calls := [.loadStatus r.repo] }
  | .ok status => { value := ({ r with Status := status }, none), calls := [.loadStatus r.repo] }

/-- The loop `for _, name := range remoteNames` of `Fetch`: the error returned
(`none` when the loop runs to its end) and the calls made. -/
def fetchRemotes (E : Engine Repository RepoStatus Remote) (repo : Repository) :
    List (List Char) → Option Error × List (Call Repository)
  | [] => (none, [])
  | name :: rest =>
    match E.RemotesLookup repo name with
    | .error err => (some (.wrap err "Failed looking up remote"), [.remotesLookup repo name])
    | .ok remote =>
      match E.RemoteFetch remote with
      | some err =>
        (some (.wrap err "Failed fetching remote"), [.remotesLookup repo name, .remoteFetch name])
      | none =>
        ((fetchRemotes E repo rest).1,
          .remotesLookup repo name :: .remoteFetch name :: (fetchRemotes E repo rest).2)

/-- `(r *Repo) Fetch()`: the handle after the call and the error returned. -/
def Fetch (E : Engine Repository RepoStatus Remote) (r : Repo Repository RepoStatus) :
    Outcome Repository (Repo Repository RepoStatus × Option Error) :=
  match E.RemotesList r.repo with
  | .error err =>
    { value := (r, some (.wrap err "Failed listing remoteNames")),
      calls := [.remotesList r.repo] }
  | .ok remoteNames =>
    { value := (r, (fetchRemotes E r.repo remoteNames).1),
      calls := .remotesList r.repo :: (fetchRemotes E r.repo remoteNames).2 }

/-- The calls of a run of the loop of `Fetch` in which every remote of `names`
is looked up and fetched. -/
def attempts (repo : Repository) : List (List Char) → List (Call Repository)
  | [] => []
  | name :: rest => .remotesLookup repo name :: .remoteFetch name :: attempts repo rest

end RepoOps

/-! ## Vocabulary of the statements -/

/-- The class `[A-Za-z0-9_-]` of the bytes of a path segment. -/
def isRepoSegChar (c : Char) : Bool :=
  ('a' ≤ c ∧ c ≤ 'z') ∨ ('A' ≤ c ∧ c ≤ 'Z') ∨ ('0' ≤ c ∧ c ≤ '9') ∨ c = '_' ∨ c = '-'

/-- The bytes of the class `[a-zA-Z0-9._-]` and the slash. -/
def isPlainChar (c : Char) : Bool := isScpHostChar c || c = '/'

/-- The scheme `ParseURL` returns for a parsed scheme `s`: `ssh` for `ssh` and
`git+ssh`, `https` for the empty scheme, `s` otherwise. -/
def normalScheme (s : List Char) : List Char :=
  if s = "ssh".toList ∨ s = "git+ssh".toList then "ssh".toList
  else if s = [] then "https".toList
  else s

/-- The user `ParseURL` returns for a parsed scheme `s` and a parsed user `u`:
`git` when the returned scheme is `ssh` and `u` is absent, `u` otherwise. -/
def normalUser (s : List Char) (u : Option Userinfo) : Option Userinfo :=
  if normalScheme s = "ssh".toList ∧ u = none then some (User "git".toList) else u

/-- An engine with the two remotes `origin` and `upstream`, in this order, in
which the fetch of `origin` fails and the status loader yields `next`. -/
def twoRemotes (next : Except Error Nat) : Engine Unit Nat (List Char) where
  OpenRepository := fun path =>
    if path = "/missing".toList then .error (.engine 3) else .ok ()
  loadStatus := fun _ => next
  RemotesList := fun _ => .ok ["origin".toList, "upstream".toList]
  RemotesLookup := fun _ name => .ok name
  RemoteFetch := fun remote => if remote = "origin".toList then some (.engine 7) else none

/-- Reading `s` from its first byte on: the bytes of `pat` in order, each after
any number of `~`. -/
def spacedPrefix : List Char → List Char → Bool
  | [], _ => true
  | p :: ps, s =>
    match s.dropWhile (· = '~') with
    | c :: r => c = p && spacedPrefix ps r
    | [] => false

/-- The string `t` ends with the bytes `.`, `g`, `i`, `t` in this order, with
nothing but `~` between them and after them. -/
def hasGitTail (t : List Char) : Bool := spacedPrefix "tig.".toList t.reverse

/-- An engine with the two remotes `origin` and `upstream`, in this order, in
which every call succeeds. -/
def quietRemotes : Engine Unit Nat (List Char) where
  OpenRepository := fun _ => .ok ()
  loadStatus := fun _ => .ok 0
  RemotesList := fun _ => .ok ["origin".toList, "upstream".toList]
  RemotesLookup := fun _ name => .ok name
  RemoteFetch := fun _ => none

/-! # Lemmas -/

/-! ## Bytes and classes of bytes -/

/-- The order of bytes is the order of their codes. -/
theorem char_le_iff (a b : Char) : a ≤ b ↔ a.toNat ≤ b.toNat := by
  simp only [Char.le_def, UInt32.le_def, BitVec.le_def, Char.toNat, UInt32.toNat]

/-- The strict order of bytes is the strict order of their codes. -/
theorem char_lt_iff (a b : Char) : a < b ↔ a.toNat < b.toNat := by
  simp only [Char.lt_def, UInt32.lt_def, BitVec.lt_def, Char.toNat, UInt32.toNat]

/-- Two bytes are equal when their codes are. -/
theorem char_eq_iff (a b : Char) : a = b ↔ a.toNat = b.toNat := by
  constructor
  · rintro rfl; rfl
  · intro h
    exact Char.ext (UInt32.ext h)

/-- A string over a class of bytes holds no byte outside the class. -/
theorem not_mem_of_class (P : Char → Bool) (s : List Char) (h : ∀ c ∈ s, P c = true)
    (x : Char) (hx : P x = false) : x ∉ s := by
  intro hm
  rw [h x hm] at hx
  cases hx

/-- The class `[a-zA-Z0-9_]` lies inside `[a-zA-Z0-9._-]`. -/
theorem userChar_hostChar (c : Char) (h : isScpUserChar c = true) : isScpHostChar c = true := by
  simp only [isScpUserChar, isScpHostChar, Bool.decide_or, Bool.decide_and, Bool.or_eq_true,
    Bool.and_eq_true, decide_eq_true_eq] at h ⊢
  tauto

/-- The class `[A-Za-z0-9_-]` lies inside `[a-zA-Z0-9._-]`. -/
theorem segChar_hostChar (c : Char) (h : isRepoSegChar c = true) : isScpHostChar c = true := by
  simp only [isRepoSegChar, isScpHostChar, Bool.decide_or, Bool.decide_and, Bool.or_eq_true,
    Bool.and_eq_true, decide_eq_true_eq] at h ⊢
  tauto

/-- No byte of `[a-zA-Z0-9._-]` is a control byte. -/
theorem hostChar_not_ctl (c : Char) (h : isScpHostChar c = true) :
    ¬ (c < ' ' ∨ c = Char.ofNat 0x7f) := by
  simp only [isScpHostChar, Bool.decide_or, Bool.decide_and, Bool.or_eq_true,
    Bool.and_eq_true, decide_eq_true_eq, char_le_iff, char_lt_iff, char_eq_iff] at h ⊢
  simp at h ⊢
  omega

/-- No byte of `[a-zA-Z0-9._-]` needs escaping in a host. -/
theorem hostChar_no_escape (c : Char) (h : isScpHostChar c = true) :
    urlpkg.shouldEscapeHost c = false := by
  simp only [isScpHostChar, Bool.decide_or, Bool.decide_and, Bool.or_eq_true,
    Bool.and_eq_true, decide_eq_true_eq] at h
  simp only [urlpkg.shouldEscapeHost, urlpkg.isLetter, urlpkg.isDigit, Bool.decide_or,
    Bool.decide_and, Bool.or_eq_true, Bool.and_eq_true, decide_eq_true_eq]
  rcases h with h | h | h | h | h | h
  · rw [if_pos (by tauto)]
  · rw [if_pos (by tauto)]
  · rw [if_pos (by tauto)]
  · subst h; decide
  · subst h; decide
  · subst h; decide

/-- Every byte of `[a-zA-Z0-9_]` is allowed by `validUserinfo`. -/
theorem userChar_userinfo (c : Char) (h : isScpUserChar c = true) :
    (decide (urlpkg.isLetter c = true ∨ urlpkg.isDigit c = true ∨
      c ∈ ['-', '.', '_', ':', '~', '!', '$', '&', '\'', '(', ')', '*', '+', ',', ';', '=',
        '%', '@'])) = true := by
  simp only [isScpUserChar, Bool.decide_or, Bool.decide_and, Bool.or_eq_true,
    Bool.and_eq_true, decide_eq_true_eq] at h
  simp only [urlpkg.isLetter, urlpkg.isDigit, Bool.decide_or,
    Bool.decide_and, Bool.or_eq_true, Bool.and_eq_true, decide_eq_true_eq]
  rcases h with h | h | h | h
  · tauto
  · tauto
  · tauto
  · subst h; decide

/-! ## `strings.Split`, `strings.ReplaceAll`, `strings.TrimSuffix` -/

/-- The loop of `strings.Split` always yields at least one piece. -/
theorem splitFrom_ne_nil (sep : List Char) (k : Nat) (s : List Char) :
    splitFrom sep k s ≠ [] := by
  induction s generalizing k with
  | nil => simp [splitFrom]
  | cons c rest ih =>
    cases k with
    | succ k => simpa [splitFrom] using ih k
    | zero =>
      simp only [splitFrom]
      split
      · simp
      · split <;> simp

/-- The first piece of `Split(h ++ tail, ":")` starts with `h` when `h` has no colon. -/
theorem Split_colon_head (h tail : List Char) (hc : ':' ∉ h) :
    (Split (h ++ tail) ":".toList).headD [] = h ++ (Split tail ":".toList).headD [] := by
  induction h with
  | nil => simp
  | cons c rest ih =>
    have hc1 : c ≠ ':' := fun e => hc (by simp [e])
    have hc2 : ':' ∉ rest := fun e => hc (by simp [e])
    have ih2 := ih hc2
    have hne : (':' == c) = false := by simpa using fun e => hc1 e.symm
    simp only [Split, String.toList, List.cons_append, splitFrom, List.isPrefixOf, hne,
      Bool.false_and] at ih2 ⊢
    cases hs : splitFrom [':'] 0 (rest ++ tail) with
    | nil => exact absurd hs (splitFrom_ne_nil _ _ _)
    | cons seg segs => simp [hs] at ih2 ⊢; exact ih2

/-- The first piece of `Split(h:port, ":")` is `h` when `h` has no colon. -/
theorem Split_colon_port (h port : List Char) (hc : ':' ∉ h) :
    (Split (h ++ ":".toList ++ port) ":".toList).headD [] = h := by
  rw [List.append_assoc, Split_colon_head h _ hc]
  simp [Split, splitFrom, List.isPrefixOf]

/-- The first piece of `Split(h, ":")` is `h` when `h` has no colon. -/
theorem Split_colon_none (h : List Char) (hc : ':' ∉ h) :
    (Split h ":".toList).headD [] = h := by
  have := Split_colon_head h [] hc
  simpa [Split, splitFrom] using this

/-- The first piece of `Split(s, ":")` holds bytes of `s` only. -/
theorem Split_colon_head_subset (y : Char) (s : List Char)
    (h : y ∈ (Split s ":".toList).headD []) : y ∈ s := by
  induction s with
  | nil => simp [Split, splitFrom] at h
  | cons c rest ih =>
    simp only [Split, String.toList, splitFrom, List.isPrefixOf] at h ih
    by_cases hc : (':' == c) = true
    · simp [hc] at h
    · simp only [hc, Bool.false_and, Bool.false_eq_true, if_false] at h
      cases hs : splitFrom [':'] 0 rest with
      | nil => simp [hs] at h; simp [h]
      | cons seg segs =>
        simp only [hs, List.headD_cons, List.mem_cons] at h ih
        rcases h with h | h
        · simp [h]
        · exact List.mem_cons_of_mem _ (ih h)

/-- Replacing `~` by the empty string deletes every `~`. -/
theorem replaceFrom_tilde (s : List Char) :
    replaceFrom ['~'] [] 0 s = s.filter (· ≠ '~') := by
  induction s with
  | nil => simp [replaceFrom]
  | cons c rest ih =>
    by_cases h : c = '~'
    · subst h; simp [replaceFrom, ih]
    · have hne : ('~' == c) = false := by simpa using fun e => h e.symm
      simp [replaceFrom, List.isPrefixOf, hne, ih, h]

/-- After `TrimSuffix(j, suf)` the suffix is gone unless `j` ended with it twice. -/
theorem TrimSuffix_not_suffix (j suf : List Char)
    (h2 : HasSuffix j (suf ++ suf) = false) : HasSuffix (TrimSuffix j suf) suf = false := by
  unfold TrimSuffix
  by_cases h1 : HasSuffix j suf = true
  · rw [if_pos h1]
    simp only [HasSuffix, List.isSuffixOf_iff_suffix] at h1
    obtain ⟨k, rfl⟩ := h1
    have : (k ++ suf).take ((k ++ suf).length - suf.length) = k := by simp
    rw [this]
    cases h3 : HasSuffix k suf with
    | false => rfl
    | true =>
      simp only [HasSuffix, List.isSuffixOf_iff_suffix] at h3
      obtain ⟨m, rfl⟩ := h3
      have h4 : HasSuffix (m ++ suf ++ suf) (suf ++ suf) = true := by
        simp only [HasSuffix, List.isSuffixOf_iff_suffix]
        exact ⟨m, by simp⟩
      rw [h4] at h2; cases h2
  · rw [if_neg h1]; simpa using h1

/-- Deleting the tildes of a string of tildes leaves nothing. -/
theorem filter_tildes (l : List Char) (h : ∀ c ∈ l, c = '~') :
    l.filter (· ≠ '~') = [] := by
  rw [List.filter_eq_nil_iff]
  intro a ha
  simp [h a ha]

/-- A string that is empty once its tildes are deleted holds tildes only. -/
theorem tildes_of_filter (l : List Char) (h : l.filter (· ≠ '~') = []) :
    ∀ c ∈ l, c = '~' := by
  rw [List.filter_eq_nil_iff] at h
  intro c hc
  simpa using h c hc

/-- Stepping over leading tildes stops at the first other byte. -/
theorem dropWhile_tildes (l r : List Char) (x : Char) (h : ∀ c ∈ l, c = '~') (hx : x ≠ '~') :
    (l ++ x :: r).dropWhile (· = '~') = x :: r := by
  have hall : ∀ c ∈ l, (fun c : Char => decide (c = '~')) c = true := by
    intro c hc; simp [h c hc]
  have hneg : ¬ ((fun c : Char => decide (c = '~')) x = true) := by simpa using hx
  rw [List.dropWhile_append_of_pos hall]
  exact List.dropWhile_cons_of_neg hneg

/-- A string ends with `.git` once its tildes are deleted exactly when it ends with `.`, `g`, `i`, `t` in this order, with tildes only between and after them. -/
theorem filter_git_suffix_iff (t : List Char) :
    HasSuffix (t.filter (· ≠ '~')) ".git".toList = true ↔
      ∃ a t1 t2 t3 t4 : List Char, (∀ c ∈ t1 ++ t2 ++ t3 ++ t4, c = '~') ∧
        t = a ++ ".".toList ++ t1 ++ "g".toList ++ t2 ++ "i".toList ++ t3 ++ "t".toList ++ t4 := by
  constructor
  · intro h
    simp only [HasSuffix, List.isSuffixOf_iff_suffix] at h
    obtain ⟨b, hb⟩ := h
    obtain ⟨m1, m2, rfl, -, h2⟩ := List.filter_eq_append_iff.mp hb.symm
    obtain ⟨l1, r1, rfl, -, -, h3⟩ := List.filter_eq_cons_iff.mp h2
    obtain ⟨l2, r2, rfl, hl2, -, h4⟩ := List.filter_eq_cons_iff.mp h3
    obtain ⟨l3, r3, rfl, hl3, -, h5⟩ := List.filter_eq_cons_iff.mp h4
    obtain ⟨l4, r4, rfl, hl4, -, h6⟩ := List.filter_eq_cons_iff.mp h5
    refine ⟨m1 ++ l1, l2, l3, l4, r4, ?_, by simp⟩
    intro c hc
    simp only [List.mem_append] at hc
    rcases hc with ((hc | hc) | hc) | hc
    · simpa using hl2 c hc
    · simpa using hl3 c hc
    · simpa using hl4 c hc
    · exact tildes_of_filter r4 h6 c hc
  · rintro ⟨a, t1, t2, t3, t4, ht, rfl⟩
    have f1 := filter_tildes t1 (fun c hc => ht c (by simp [hc]))
    have f2 := filter_tildes t2 (fun c hc => ht c (by simp [hc]))
    have f3 := filter_tildes t3 (fun c hc => ht c (by simp [hc]))
    have f4 := filter_tildes t4 (fun c hc => ht c (by simp [hc]))
    simp only [HasSuffix, List.isSuffixOf_iff_suffix, List.filter_append, f1, f2, f3, f4]
    exact ⟨a.filter (· ≠ '~'), by simp [List.filter]⟩

/-- One step of `spacedPrefix`: tildes, then the expected byte. -/
theorem spacedPrefix_step (p : Char) (ps l r : List Char) (h : ∀ c ∈ l, c = '~')
    (hp : p ≠ '~') : spacedPrefix (p :: ps) (l ++ p :: r) = spacedPrefix ps r := by
  simp only [spacedPrefix, dropWhile_tildes l r p h hp]
  simp

/-- The test `hasGitTail` accepts every string with such a tail. -/
theorem hasGitTail_of_spaced (a t1 t2 t3 t4 : List Char)
    (ht : ∀ c ∈ t1 ++ t2 ++ t3 ++ t4, c = '~') :
    hasGitTail (a ++ ".".toList ++ t1 ++ "g".toList ++ t2 ++ "i".toList ++ t3 ++ "t".toList ++ t4)
      = true := by
  have r1 : ∀ c ∈ t1.reverse, c = '~' := fun c hc => ht c (by simp at hc; simp [hc])
  have r2 : ∀ c ∈ t2.reverse, c = '~' := fun c hc => ht c (by simp at hc; simp [hc])
  have r3 : ∀ c ∈ t3.reverse, c = '~' := fun c hc => ht c (by simp at hc; simp [hc])
  have r4 : ∀ c ∈ t4.reverse, c = '~' := fun c hc => ht c (by simp at hc; simp [hc])
  have e : (a ++ ".".toList ++ t1 ++ "g".toList ++ t2 ++ "i".toList ++ t3 ++ "t".toList ++
      t4).reverse =
      t4.reverse ++ 't' :: (t3.reverse ++ 'i' :: (t2.reverse ++ 'g' :: (t1.reverse ++
        '.' :: a.reverse))) := by simp
  rw [hasGitTail, e]
  simp only [String.toList]
  rw [spacedPrefix_step _ _ _ _ r4 (by decide), spacedPrefix_step _ _ _ _ r3 (by decide),
    spacedPrefix_step _ _ _ _ r2 (by decide), spacedPrefix_step _ _ _ _ r1 (by decide)]
  rfl

/-! ## `path.Clean` and `path.Join` -/

/-- The backtracking loop of `Clean` only drops bytes. -/
theorem backtrackLoop_subset (dotdot : Nat) (y : Char) :
    ∀ (l : List Char) (last : Char), y ∈ backtrackLoop dotdot last l → y ∈ l := by
  intro l
  induction l with
  | nil => intro last h; simp [backtrackLoop] at h
  | cons c rest ih =>
    intro last h
    simp only [backtrackLoop] at h
    split at h
    · exact List.mem_cons_of_mem _ (ih c h)
    · exact h

/-- Backtracking in `Clean` only drops bytes. -/
theorem backtrack_subset (dotdot : Nat) (y : Char) (out : List Char)
    (h : y ∈ backtrack dotdot out) : y ∈ out := by
  unfold backtrack at h
  split at h
  · simp at h
  · rename_i last revOut heq
    have h1 : y ∈ backtrackLoop dotdot last revOut := by simpa using h
    have h2 := backtrackLoop_subset dotdot y revOut last h1
    have h3 : y ∈ out.reverse := by rw [heq]; exact List.mem_cons_of_mem _ h2
    simpa using h3

/-- The loop of `Clean` writes a byte other than `/` and `.` only when it reads it. -/
theorem cleanLoop_avoids (x : Char) (hs : x ≠ '/') (hd : x ≠ '.') (rooted : Bool) :
    ∀ (n : Nat) (path : List Char), path.length ≤ n → ∀ (copying : Bool) (out : List Char)
      (dotdot : Nat), x ∉ out → x ∉ path → x ∉ cleanLoop rooted copying out dotdot path := by
  intro n
  induction n with
  | zero =>
    intro path hl copying out dotdot ho hp
    have : path = [] := List.length_eq_zero.mp (Nat.le_zero.mp hl)
    subst this
    cases copying <;> simpa [cleanLoop] using ho
  | succ n ih =>
    intro path hl copying out dotdot ho hp
    match path, copying with
    | [], true => simpa [cleanLoop] using ho
    | [], false => simpa [cleanLoop] using ho
    | c :: rest, true =>
      have hc : x ≠ c := fun e => hp (by simp [e])
      have hr : x ∉ rest := fun e => hp (by simp [e])
      have hlr : rest.length ≤ n := by simpa using hl
      simp only [cleanLoop]
      split
      · exact ih rest hlr _ _ _ ho hr
      · exact ih rest hlr _ _ _ (by simp [ho, hc]) hr
    | [c], false =>
      have hc : x ≠ c := fun e => hp (by simp [e])
      simp only [cleanLoop]
      split
      · exact ho
      · split
        · exact ho
        · split <;> simp [ho, hs, hc]
    | c :: d :: rest2, false =>
      have hc : x ≠ c := fun e => hp (by simp [e])
      have hr : x ∉ d :: rest2 := fun e => hp (List.mem_cons_of_mem _ e)
      have hlr : (d :: rest2).length ≤ n := by simpa using hl
      have hr2 : x ∉ rest2 := fun e => hr (List.mem_cons_of_mem _ e)
      have hlr2 : rest2.length ≤ n := by simp at hlr; omega
      rw [cleanLoop]
      split
      · exact ih _ hlr _ _ _ ho hr
      · split
        · exact ih _ hlr _ _ _ ho hr
        · split
          · split
            · exact ih rest2 hlr2 _ _ _ (fun e => ho (backtrack_subset _ _ _ e)) hr2
            · split
              · refine ih rest2 hlr2 _ _ _ ?_ hr2
                split <;> simp [ho, hs, hd]
              · exact ih rest2 hlr2 _ _ _ ho hr2
          · refine ih (d :: rest2) hlr _ _ _ ?_ hr
            split <;> simp [ho, hs, hc]

/-- A byte other than `/` and `.` that is not in `path` is not in `Clean(path)`. -/
theorem Clean_avoids (x : Char) (hs : x ≠ '/') (hd : x ≠ '.') (path : List Char)
    (hp : x ∉ path) : x ∉ Clean path := by
  match path with
  | [] => simp [Clean, hd]
  | c :: rest =>
    have hr : x ∉ rest := fun e => hp (by simp [e])
    have h1 := cleanLoop_avoids x hs hd true _ rest (le_refl _) false ['/'] 1 (by simp [hs]) hr
    have h2 := cleanLoop_avoids x hs hd false _ (c :: rest) (le_refl _) false [] 0 (by simp) hp
    simp only [Clean]
    by_cases hc : c = '/'
    · simp only [hc, decide_True, if_true]
      split
      · simp [hd]
      · exact h1
    · simp only [hc, decide_False, Bool.false_eq_true, if_false]
      split
      · simp [hd]
      · exact h2

/-- A byte in no element and not in the separator is not in `strings.Join`. -/
theorem stringsJoin_avoids (x : Char) (sep : List Char) (hsep : x ∉ sep) :
    ∀ elems : List (List Char), (∀ e ∈ elems, x ∉ e) → x ∉ stringsJoin elems sep := by
  intro elems
  induction elems with
  | nil => intro _; simp [stringsJoin]
  | cons e rest ih =>
    intro h
    cases rest with
    | nil => simpa [stringsJoin] using h e (by simp)
    | cons e2 rest2 =>
      simp only [stringsJoin, List.mem_append, not_or]
      exact ⟨⟨h e (by simp), hsep⟩, ih (fun e' he' => h e' (by simp [he']))⟩

/-- A byte other than `/` and `.` that is in no element is not in `path.Join`. -/
theorem Join_avoids (x : Char) (hs : x ≠ '/') (hd : x ≠ '.') :
    ∀ elems : List (List Char), (∀ e ∈ elems, x ∉ e) → x ∉ Join elems := by
  intro elems
  induction elems with
  | nil => intro _; simp [Join]
  | cons e rest ih =>
    intro h
    simp only [Join]
    split
    · exact Clean_avoids x hs hd _ (stringsJoin_avoids x _ (by simp [hs]) _ h)
    · exact ih (fun e' he' => h e' (by simp [he']))

/-- The loop of `Clean` steps over a slash. -/
theorem cleanLoop_slash (rooted : Bool) (out : List Char) (dotdot : Nat) (X : List Char) :
    cleanLoop rooted false out dotdot ('/' :: X) = cleanLoop rooted false out dotdot X := by
  cases X <;> simp [cleanLoop]

/-- The copy loop of `Clean` appends the bytes up to the next slash and steps over it. -/
theorem cleanLoop_copy (rooted : Bool) (dotdot : Nat) (X : List Char) :
    ∀ (s out : List Char), '/' ∉ s →
      cleanLoop rooted true out dotdot (s ++ '/' :: X) = cleanLoop rooted false (out ++ s) dotdot X := by
  intro s
  induction s with
  | nil => intro out _; simp [cleanLoop]
  | cons c t ih =>
    intro out hs
    have hc : c ≠ '/' := fun e => hs (by simp [e])
    have ht : '/' ∉ t := fun e => hs (by simp [e])
    rw [List.cons_append, cleanLoop, if_neg hc, ih _ ht]
    simp

/-- Reading a first segment and the slash after it, the loop of `Clean` reaches a state that does not depend on what follows. -/
theorem cleanLoop_segment (rooted : Bool) (out : List Char) (dotdot : Nat) (seg : List Char)
    (hne : seg ≠ []) (hs : '/' ∉ seg) :
    ∃ (out2 : List Char) (dotdot2 : Nat), ∀ X : List Char,
      cleanLoop rooted false out dotdot (seg ++ '/' :: X) = cleanLoop rooted false out2 dotdot2 X := by
  match seg, hne with
  | [c], _ =>
    have hc : c ≠ '/' := fun e => hs (by simp [e])
    by_cases hd : c = '.'
    · refine ⟨out, dotdot, fun X => ?_⟩
      subst hd
      simp [cleanLoop, cleanLoop_slash]
    · refine ⟨(if (rooted = true ∧ out.length ≠ 1) ∨ ((!rooted) = true ∧ out.length ≠ 0)
          then out ++ ['/'] else out) ++ [c], dotdot, fun X => ?_⟩
      rw [List.singleton_append, cleanLoop, if_neg hc, if_neg (by simp [hd]), if_neg (by simp [hd])]
      simp only
      rw [cleanLoop, if_pos rfl]
  | c :: d :: t, _ =>
    have hc : c ≠ '/' := fun e => hs (by simp [e])
    have hd : d ≠ '/' := fun e => hs (by simp [e])
    have ht : '/' ∉ t := fun e => hs (by simp [e])
    have hdt : '/' ∉ d :: t := fun e => hs (List.mem_cons_of_mem _ e)
    by_cases hdd : c = '.' ∧ d = '.' ∧ t = []
    · obtain ⟨rfl, rfl, rfl⟩ := hdd
      by_cases hw : out.length > dotdot
      · refine ⟨backtrack dotdot out, dotdot, fun X => ?_⟩
        simp [cleanLoop, hw, cleanLoop_slash]
      · cases rooted with
        | false =>
          refine ⟨(if out.length > 0 then out ++ ['/'] else out) ++ ['.', '.'],
            ((if out.length > 0 then out ++ ['/'] else out) ++ ['.', '.']).length, fun X => ?_⟩
          simp only [List.cons_append, List.nil_append]
          rw [cleanLoop, if_neg (by decide), if_neg (by simp), if_pos (by simp), if_neg hw,
            if_pos (by simp)]
          simp only
          rw [cleanLoop_slash]
        | true =>
          refine ⟨out, dotdot, fun X => ?_⟩
          simp [cleanLoop, hw, cleanLoop_slash]
    · refine ⟨(if (rooted = true ∧ out.length ≠ 1) ∨ ((!rooted) = true ∧ out.length ≠ 0)
          then out ++ ['/'] else out) ++ [c] ++ (d :: t), dotdot, fun X => ?_⟩
      have hcond : ¬ (c = '.' ∧ d = '.' ∧ (t ++ '/' :: X = [] ∨ (t ++ '/' :: X).head? = some '/')) := by
        rintro ⟨h1, h2, h3⟩
        apply hdd
        refine ⟨h1, h2, ?_⟩
        cases t with
        | nil => rfl
        | cons e t2 =>
          exfalso
          rcases h3 with h3 | h3
          · simp at h3
          · simp at h3; exact ht (by simp [h3])
      rw [List.cons_append, List.cons_append, cleanLoop, if_neg hc, if_neg (by simp [hd]),
        if_neg hcond]
      simp only
      rw [← List.cons_append, cleanLoop_copy _ _ _ _ _ hdt]

/-- The loop of `Clean` treats a doubled slash after a segment as a single one. -/
theorem cleanLoop_double_slash (rooted : Bool) (out : List Char) (dotdot : Nat)
    (seg X : List Char) (hne : seg ≠ []) (hs : '/' ∉ seg) :
    cleanLoop rooted false out dotdot (seg ++ '/' :: '/' :: X) =
      cleanLoop rooted false out dotdot (seg ++ '/' :: X) := by
  obtain ⟨out2, dotdot2, h⟩ := cleanLoop_segment rooted out dotdot seg hne hs
  rw [h, h, cleanLoop_slash]

/-- `Clean(seg//X) = Clean(seg/X)` for a non-empty segment `seg`. -/
theorem Clean_double_slash (seg X : List Char) (hne : seg ≠ []) (hs : '/' ∉ seg) :
    Clean (seg ++ '/' :: '/' :: X) = Clean (seg ++ '/' :: X) := by
  match seg, hne with
  | c :: t, _ =>
    have hc : c ≠ '/' := fun e => hs (by simp [e])
    have h := cleanLoop_double_slash false [] 0 (c :: t) X (by simp) hs
    simp only [List.cons_append] at h
    simp only [Clean, List.cons_append, hc, decide_False, Bool.false_eq_true, if_false, h]

/-- `path.Join(host, path)` is `Clean(host/path)` for a non-empty host. -/
theorem Join_host_path (host path : List Char) (hh1 : host ≠ []) :
    Join [host, path] = Clean (host ++ '/' :: path) := by
  simp [Join, hh1, stringsJoin]

/-- `path.Join("", path)` is `Clean(path)` for a non-empty path. -/
theorem Join_path_only (path : List Char) (hp : path ≠ []) :
    Join [[], path] = Clean path := by
  simp [Join, hp, stringsJoin]

/-! ## `URLToPath` -/

/-- `URLToPath` as a composition: join, trim one `.git`, delete the tildes. -/
theorem URLToPath_eq (url : URL) :
    URLToPath url =
      (TrimSuffix (Join [(Split url.Host ":".toList).headD [], url.Path]) ".git".toList).filter
        (· ≠ '~') := by
  simp only [URLToPath, ReplaceAll, String.toList]
  rw [if_neg (by decide), replaceFrom_tilde]

/-- `URLToPath` depends on the joined host and path only. -/
theorem URLToPath_congr (a b : URL)
    (h : Join [(Split a.Host ":".toList).headD [], a.Path] =
      Join [(Split b.Host ":".toList).headD [], b.Path]) : URLToPath a = URLToPath b := by
  simp only [URLToPath, h]

/-! ## `scpSyntax` -/

/-- `scpSyntax` matches `user@host:path` and returns its three parts. -/
theorem scpSyntax_match (user host path : List Char)
    (hu1 : user ≠ []) (hu2 : ∀ c ∈ user, isScpUserChar c = true)
    (hh1 : host ≠ []) (hh2 : ∀ c ∈ host, isScpHostChar c = true)
    (hp : '\n' ∉ path) :
    scpSyntax (user ++ "@".toList ++ host ++ ":".toList ++ path) =
      some { user := user, host := host, path := path } := by
  have e1 : user ++ "@".toList ++ host ++ ":".toList ++ path =
      user ++ ('@' :: (host ++ (':' :: path))) := by simp
  have hat : ¬ (isScpUserChar '@' = true) := by decide
  have hcol : ¬ (isScpHostChar ':' = true) := by decide
  have t1 : (user ++ ('@' :: (host ++ (':' :: path)))).takeWhile isScpUserChar = user := by
    rw [List.takeWhile_append_of_pos hu2, List.takeWhile_cons_of_neg hat]; simp
  have d1 : (user ++ ('@' :: (host ++ (':' :: path)))).dropWhile isScpUserChar =
      '@' :: (host ++ (':' :: path)) := by
    rw [List.dropWhile_append_of_pos hu2, List.dropWhile_cons_of_neg hat]
  have t2 : (host ++ (':' :: path)).takeWhile isScpHostChar = host := by
    rw [List.takeWhile_append_of_pos hh2, List.takeWhile_cons_of_neg hcol]; simp
  have d2 : (host ++ (':' :: path)).dropWhile isScpHostChar = ':' :: path := by
    rw [List.dropWhile_append_of_pos hh2, List.dropWhile_cons_of_neg hcol]
  have hp2 : path.all isRegexDot = true := by
    rw [List.all_eq_true]
    intro c hc
    simp only [isRegexDot, ne_eq, decide_not, Bool.not_eq_true', decide_eq_false_iff_not]
    rintro rfl; exact hp hc
  rw [e1]
  simp only [scpSyntax, t1, d1, t2, d2]
  simp [hu1, hh1, hp2]

/-- What `scpSyntax` matches has the form `user@host:path`, with the parts it returns. -/
theorem scpSyntax_sound (raw : List Char) (m : ScpMatch) (h : scpSyntax raw = some m) :
    raw = m.user ++ "@".toList ++ m.host ++ ":".toList ++ m.path ∧
    m.user ≠ [] ∧ (∀ c ∈ m.user, isScpUserChar c = true) ∧
    m.host ≠ [] ∧ (∀ c ∈ m.host, isScpHostChar c = true) ∧ '\n' ∉ m.path := by
  unfold scpSyntax at h
  simp only at h
  split at h
  · rename_i c afterAt h1
    split at h
    · rename_i d path h2
      split at h
      · rename_i hc
        obtain ⟨rfl, rfl, hu, hh, hp⟩ := hc
        simp only [Option.some.injEq] at h
        subst h
        refine ⟨?_, hu, ?_, hh, ?_, ?_⟩
        · have a1 := List.takeWhile_append_dropWhile isScpUserChar raw
          have a2 := List.takeWhile_append_dropWhile isScpHostChar afterAt
          rw [h1] at a1; rw [h2] at a2
          simp only [String.toList, List.append_assoc, List.singleton_append, List.cons_append,
            List.nil_append]
          rw [a2]; exact a1.symm
        · intro c hc; exact List.mem_takeWhile_imp hc
        · intro c hc; exact List.mem_takeWhile_imp hc
        · intro hn
          rw [List.all_eq_true] at hp
          have := hp _ hn
          simp [isRegexDot] at this
      · cases h
    · cases h
  · cases h

/-- An address without `@` does not match `scpSyntax`. -/
theorem scpSyntax_none_of_no_at (raw : List Char) (h : '@' ∉ raw) : scpSyntax raw = none := by
  cases hm : scpSyntax raw with
  | none => rfl
  | some m =>
    have := (scpSyntax_sound raw m hm).1
    exact absurd (by rw [this]; simp) h

/-- An address starting with `ssh://` does not match `scpSyntax`. -/
theorem scpSyntax_ssh_url (X : List Char) : scpSyntax ("ssh://".toList ++ X) = none := by
  have d : ("ssh://".toList ++ X).dropWhile isScpUserChar = ':' :: '/' :: '/' :: X := rfl
  simp only [scpSyntax, d]
  split
  · rw [if_neg]
    rintro ⟨h, _⟩
    exact absurd h (by decide)
  · rfl

/-! ## `net/url.Parse` on plain addresses -/

section ParserLemmas

open urlpkg

/-- The checking loop of `unescape` accepts a string without `%` whose bytes need no escaping in a host. -/
theorem unescapeCheck_none (mode : Encoding) (s : List Char) (hp : '%' ∉ s)
    (hh : (mode = .encodeHost ∨ mode = .encodeZone) → ∀ c ∈ s, shouldEscapeHost c = false) :
    unescapeCheck mode s = none := by
  induction s with
  | nil => simp [unescapeCheck]
  | cons c rest ih =>
    have hc : c ≠ '%' := fun e => hp (by simp [e])
    have hr : '%' ∉ rest := fun e => hp (by simp [e])
    have ih2 := ih hr (fun hm c hc => hh hm c (List.mem_cons_of_mem _ hc))
    rw [unescapeCheck.eq_def]
    simp only [hc, if_false]
    split
    · exact ih2
    · rw [if_neg, ih2]
      rintro ⟨hm, _, he⟩
      rw [hh hm c (by simp)] at he
      cases he

/-- The decoding loop of `unescape` copies a string without `%`. -/
theorem unescapeDecode_id (mode : Encoding) (hq : mode ≠ .encodeQueryComponent)
    (s : List Char) (hp : '%' ∉ s) : unescapeDecode mode s = s := by
  induction s with
  | nil => simp [unescapeDecode]
  | cons c rest ih =>
    have hc : c ≠ '%' := fun e => hp (by simp [e])
    have hr : '%' ∉ rest := fun e => hp (by simp [e])
    rw [unescapeDecode.eq_def]
    simp only [hc, if_false, ih hr, if_neg hq]
    split
    · rename_i h; rw [h]
    · rfl

/-- `unescape` returns a string without `%` unchanged. -/
theorem unescape_id (mode : Encoding) (hq : mode ≠ .encodeQueryComponent)
    (s : List Char) (hp : '%' ∉ s)
    (hh : (mode = .encodeHost ∨ mode = .encodeZone) → ∀ c ∈ s, shouldEscapeHost c = false) :
    unescape s mode = .ok s := by
  simp only [unescape, unescapeCheck_none mode s hp hh, unescapeDecode_id mode hq s hp]

/-- `getScheme` finds no scheme in a string without a colon. -/
theorem getSchemeFrom_no_colon (rawURL : List Char) (s : List Char) (hc : ':' ∉ s) :
    ∀ i, getSchemeFrom rawURL i s = .ok ([], rawURL) := by
  induction s with
  | nil => intro i; simp [getSchemeFrom]
  | cons c rest ih =>
    intro i
    have h1 : c ≠ ':' := fun e => hc (by simp [e])
    have hr : ':' ∉ rest := fun e => hc (by simp [e])
    rw [getSchemeFrom]
    split
    · exact ih hr _
    · split
      · split
        · rfl
        · exact ih hr _
      · rfl

/-- `split` of a string without the separator. -/
theorem split_not_mem (s : List Char) (sep : Char) (cutc : Bool) (h : sep ∉ s) :
    split s sep cutc = (s, []) := by
  have : s.dropWhile (· ≠ sep) = [] := by
    rw [List.dropWhile_eq_nil_iff]
    intro x hx
    simp only [ne_eq, decide_not, Bool.not_eq_true', decide_eq_false_iff_not]
    rintro rfl; exact h hx
  simp only [split, this]

/-- `split` cuts at the first separator. -/
theorem split_at_first (a r : List Char) (sep : Char) (cutc : Bool) (h : sep ∉ a) :
    split (a ++ sep :: r) sep cutc = (a, if cutc then r else sep :: r) := by
  have hall : ∀ x ∈ a, (decide (x ≠ sep)) = true := by
    intro x hx
    simp only [ne_eq, decide_not, Bool.not_eq_true', decide_eq_false_iff_not]
    rintro rfl; exact h hx
  have hneg : ¬ ((fun x : Char => decide (x ≠ sep)) sep = true) := by simp
  have d : (a ++ sep :: r).dropWhile (fun x : Char => decide (x ≠ sep)) = sep :: r := by
    rw [List.dropWhile_append_of_pos hall]
    exact List.dropWhile_cons_of_neg hneg
  have t : (a ++ sep :: r).takeWhile (fun x : Char => decide (x ≠ sep)) = a := by
    rw [List.takeWhile_append_of_pos hall,
      List.takeWhile_cons_of_neg (p := fun x : Char => decide (x ≠ sep)) hneg]; simp
  simp only [split, d, t]

/-- `strings.LastIndex` is `-1` for a byte that does not occur. -/
theorem LastIndexByte_not_mem (s : List Char) (c : Char) (h : c ∉ s) :
    LastIndexByte s c = none := by
  induction s with
  | nil => rfl
  | cons x rest ih =>
    have hx : x ≠ c := fun e => h (by simp [e])
    have hr : c ∉ rest := fun e => h (by simp [e])
    simp [LastIndexByte, ih hr, hx]

/-- `strings.LastIndex` finds the last occurrence. -/
theorem LastIndexByte_last (a r : List Char) (c : Char) (h : c ∉ r) :
    LastIndexByte (a ++ c :: r) c = some a.length := by
  induction a with
  | nil => simp [LastIndexByte, LastIndexByte_not_mem r c h]
  | cons x rest ih => simp [LastIndexByte, ih]

/-- A string without control bytes passes `stringContainsCTLByte`. -/
theorem no_ctl_of_class (s : List Char) (h : ∀ c ∈ s, ¬ (c < ' ' ∨ c = Char.ofNat 0x7f)) :
    stringContainsCTLByte s = false := by
  simp only [stringContainsCTLByte, Bool.decide_or, List.any_eq_false, Bool.or_eq_true,
    decide_eq_true_eq]
  exact h

/-- Two strings with different first bytes: neither is a prefix of the other. -/
theorem HasPrefix_head (c d : Char) (s t : List Char) (h : c ≠ d) :
    HasPrefix (c :: s) (d :: t) = false := by
  have hne : (d == c) = false := by simpa using fun e => h (Eq.symm e)
  simp [HasPrefix, List.isPrefixOf, hne]

/-- A string over `[a-zA-Z0-9._-]` and `/` has no control byte. -/
theorem plain_not_ctl (s : List Char) (h : ∀ c ∈ s, isPlainChar c = true) :
    stringContainsCTLByte s = false := by
  apply no_ctl_of_class
  intro c hc
  have := h c hc
  simp only [isPlainChar, Bool.or_eq_true, decide_eq_true_eq] at this
  rcases this with h1 | h1
  · exact hostChar_not_ctl c h1
  · subst h1; decide

/-- `parseHost` returns a host over `[a-zA-Z0-9._-]` unchanged. -/
theorem parseHost_hostChars (host : List Char) (hh : ∀ c ∈ host, isScpHostChar c = true) :
    parseHost host = .ok host := by
  have h1 : HasPrefix host ['['] = false := by
    cases host with
    | nil => rfl
    | cons c t =>
      apply HasPrefix_head
      rintro rfl
      exact absurd (hh '[' (by simp)) (by decide)
  have h2 : LastIndexByte host ':' = none :=
    LastIndexByte_not_mem _ _ (not_mem_of_class _ _ hh _ (by decide))
  have h3 : unescape host .encodeHost = .ok host :=
    unescape_id _ (by decide) _ (not_mem_of_class _ _ hh _ (by decide))
      (fun _ c hc => hostChar_no_escape c (hh c hc))
  simp only [parseHost, h1, h2, h3]
  rfl

/-- `url.Parse(host/path)`: no scheme, no host, the whole address as path. -/
theorem Parse_schemeless (host path : List Char) (hh1 : host ≠ [])
    (hh2 : ∀ c ∈ host, isScpHostChar c = true) (hp : ∀ c ∈ path, isPlainChar c = true) :
    Parse (host ++ "/".toList ++ path) = .ok { Path := host ++ "/".toList ++ path } := by
  have hraw : ∀ c ∈ host ++ "/".toList ++ path, isPlainChar c = true := by
    intro c hc
    simp only [String.toList, List.append_assoc, List.singleton_append, List.mem_append,
      List.mem_cons] at hc
    rcases hc with hc | hc | hc
    · simp [isPlainChar, hh2 c hc]
    · subst hc; decide
    · exact hp c hc
  generalize hr : host ++ "/".toList ++ path = raw at hraw
  have nm : ∀ x, isPlainChar x = false → x ∉ raw := fun x hx => not_mem_of_class _ _ hraw x hx
  have s1 : split raw '#' true = (raw, []) := split_not_mem _ _ _ (nm _ (by decide))
  have c1 : stringContainsCTLByte raw = false := plain_not_ctl raw hraw
  have c2 : raw ≠ ['*'] := by
    intro e; exact nm '*' (by decide) (by rw [e]; simp)
  have c3 : getScheme raw = .ok ([], raw) := getSchemeFrom_no_colon raw raw (nm _ (by decide)) 0
  have c4 : ¬ (HasSuffix raw ['?'] = true ∧ raw.count '?' = 1) := by
    rw [List.count_eq_zero_of_not_mem (nm _ (by decide))]; simp
  have s2 : split raw '?' true = (raw, []) := split_not_mem _ _ _ (nm _ (by decide))
  have c5 : HasPrefix raw ['/'] = false := by
    subst hr
    cases host with
    | nil => exact absurd rfl hh1
    | cons c t =>
      apply HasPrefix_head
      rintro rfl
      exact absurd (hh2 '/' (by simp)) (by decide)
  have c6 : HasPrefix raw ['/', '/'] = false := by
    subst hr
    cases host with
    | nil => exact absurd rfl hh1
    | cons c t =>
      apply HasPrefix_head
      rintro rfl
      exact absurd (hh2 '/' (by simp)) (by decide)
  have s3 : split raw '/' true = (host, path) := by
    subst hr
    have := split_at_first host path '/' true (not_mem_of_class _ _ hh2 _ (by decide))
    simpa using this
  have c7 : ContainsByte host ':' = false := by
    simp only [ContainsByte, List.contains_eq_any_beq, List.any_eq_false, beq_iff_eq]
    rintro x hx rfl
    exact absurd (hh2 _ hx) (by decide)
  have c8 : unescape raw .encodePath = .ok raw :=
    unescape_id _ (by decide) _ (nm _ (by decide)) (by simp)
  simp only [Parse, s1, parse, c1, c2, c3, if_neg c4, s2, c5, c6, s3, c7, c8,
    bind, Except.bind, pure, Except.pure]
  simp

/-- `parse` of `scheme://authority/path`. -/
theorem parse_with_authority (raw scheme auth path host : List Char) (user : Option Userinfo)
    (hc : stringContainsCTLByte raw = false) (hstar : raw ≠ ['*'])
    (hs : getScheme raw = .ok (scheme, '/' :: '/' :: (auth ++ '/' :: path)))
    (hl : scheme.map Char.toLower = scheme) (hne : scheme ≠ [])
    (hq : '?' ∉ auth ++ '/' :: path) (hslash : '/' ∉ auth)
    (ha : parseAuthority auth = .ok (user, host)) (hpath : '%' ∉ path) :
    parse raw false =
      .ok { Scheme := scheme, User := user, Host := host, Path := '/' :: path } := by
  have hq2 : '?' ∉ '/' :: '/' :: (auth ++ '/' :: path) := by
    intro h
    simp only [List.mem_cons] at h
    rcases h with h | h | h
    · exact absurd h (by decide)
    · exact absurd h (by decide)
    · exact hq h
  have c4 : ¬ (HasSuffix ('/' :: '/' :: (auth ++ '/' :: path)) ['?'] = true ∧
      ('/' :: '/' :: (auth ++ '/' :: path)).count '?' = 1) := by
    rw [List.count_eq_zero_of_not_mem hq2]; simp
  have s2 : split ('/' :: '/' :: (auth ++ '/' :: path)) '?' true =
      ('/' :: '/' :: (auth ++ '/' :: path), []) := split_not_mem _ _ _ hq2
  have c5 : HasPrefix ('/' :: '/' :: (auth ++ '/' :: path)) ['/'] = true := by
    simp [HasPrefix, List.isPrefixOf]
  have c6 : HasPrefix ('/' :: '/' :: (auth ++ '/' :: path)) ['/', '/'] = true := by
    simp [HasPrefix, List.isPrefixOf]
  have d2 : ('/' :: '/' :: (auth ++ '/' :: path)).drop 2 = auth ++ '/' :: path := rfl
  have s3 : split (auth ++ '/' :: path) '/' false = (auth, '/' :: path) := by
    have := split_at_first auth path '/' false hslash
    simpa using this
  have c8 : unescape ('/' :: path) .encodePath = .ok ('/' :: path) :=
    unescape_id _ (by decide) _
      (by intro h; simp only [List.mem_cons] at h
          rcases h with h | h
          · exact absurd h (by decide)
          · exact hpath h) (by simp)
  simp only [parse, hc, hstar, hs, hl, if_neg c4, s2, c5, c6, d2, s3, ha, c8,
    bind, Except.bind, pure, Except.pure]
  simp [hne]

/-- `url.Parse(https://host/path)`. -/
theorem Parse_https (host path : List Char)
    (hh2 : ∀ c ∈ host, isScpHostChar c = true) (hp : ∀ c ∈ path, isPlainChar c = true) :
    Parse ("https://".toList ++ host ++ "/".toList ++ path) =
      .ok { Scheme := "https".toList, Host := host, Path := "/".toList ++ path } := by
  have e : "https://".toList ++ host ++ "/".toList ++ path =
      "https:".toList ++ ('/' :: '/' :: (host ++ '/' :: path)) := by simp
  have hX : ∀ c ∈ host ++ '/' :: path, isPlainChar c = true := by
    intro c hc
    simp only [List.mem_append, List.mem_cons] at hc
    rcases hc with hc | hc | hc
    · simp [isPlainChar, hh2 c hc]
    · subst hc; decide
    · exact hp c hc
  have hraw : ∀ c ∈ "https:".toList ++ ('/' :: '/' :: (host ++ '/' :: path)),
      isPlainChar c = true ∨ c = ':' := by
    intro c hc
    simp only [String.toList, List.cons_append, List.nil_append, List.mem_cons] at hc
    rcases hc with hc | hc | hc | hc | hc | hc | hc | hc | hc
    · subst hc; decide
    · subst hc; decide
    · subst hc; decide
    · subst hc; decide
    · subst hc; decide
    · subst hc; decide
    · subst hc; decide
    · subst hc; decide
    · exact Or.inl (hX c hc)
  rw [e]
  generalize hr : "https:".toList ++ ('/' :: '/' :: (host ++ '/' :: path)) = raw at hraw
  have nm : ∀ x, isPlainChar x = false → x ≠ ':' → x ∉ raw := by
    intro x hx hx2 hm
    rcases hraw x hm with h | h
    · rw [h] at hx; cases hx
    · exact hx2 h
  have s1 : split raw '#' true = (raw, []) := split_not_mem _ _ _ (nm _ (by decide) (by decide))
  have c1 : stringContainsCTLByte raw = false := by
    apply no_ctl_of_class
    intro c hc
    rcases hraw c hc with h | h
    · simp only [isPlainChar, Bool.or_eq_true, decide_eq_true_eq] at h
      rcases h with h1 | h1
      · exact hostChar_not_ctl c h1
      · subst h1; decide
    · subst h; decide
  have c2 : raw ≠ ['*'] := by
    intro e; exact nm '*' (by decide) (by decide) (by rw [e]; simp)
  have c3 : getScheme raw = .ok ("https".toList, '/' :: '/' :: (host ++ '/' :: path)) := by
    subst hr; rfl
  have ha : parseAuthority host = .ok (none, host) := by
    simp only [parseAuthority, LastIndexByte_not_mem host '@'
      (not_mem_of_class _ _ hh2 _ (by decide)), parseHost_hostChars host hh2]
    rfl
  have hp1 := parse_with_authority raw "https".toList host path host none c1 c2 c3 (by decide)
    (by decide) (not_mem_of_class _ _ hX _ (by decide))
    (not_mem_of_class _ _ hh2 _ (by decide)) ha (not_mem_of_class _ _ hp _ (by decide))
  simp only [Parse, s1, hp1]
  rfl

/-- `parseAuthority(user@host)`. -/
theorem parseAuthority_user_host (user host : List Char)
    (hu2 : ∀ c ∈ user, isScpUserChar c = true) (hh2 : ∀ c ∈ host, isScpHostChar c = true) :
    parseAuthority (user ++ '@' :: host) = .ok (some (User user), host) := by
  have hu3 : ∀ c ∈ user, isScpHostChar c = true := fun c hc => userChar_hostChar c (hu2 c hc)
  have h1 : LastIndexByte (user ++ '@' :: host) '@' = some user.length :=
    LastIndexByte_last _ _ _ (not_mem_of_class _ _ hh2 _ (by decide))
  have h2 : (user ++ '@' :: host).drop (user.length + 1) = host := by
    rw [← List.drop_drop, List.drop_left]; rfl
  have h3 : (user ++ '@' :: host).take user.length = user := List.take_left _ _
  have h4 : validUserinfo user = true := by
    simp only [validUserinfo, List.all_eq_true]
    exact fun c hc => userChar_userinfo c (hu2 c hc)
  have h5 : ContainsByte user ':' = false := by
    simp only [ContainsByte, List.contains_eq_any_beq, List.any_eq_false, beq_iff_eq]
    rintro x hx rfl
    exact absurd (hu3 _ hx) (by decide)
  have h6 : unescape user .encodeUserPassword = .ok user :=
    unescape_id _ (by decide) _ (not_mem_of_class _ _ hu3 _ (by decide)) (by simp)
  simp only [parseAuthority, h1, h2, h3, h4, h5, h6, parseHost_hostChars host hh2,
    bind, Except.bind, pure, Except.pure]
  rfl

/-- `url.Parse(ssh://user@host/path)`. -/
theorem Parse_ssh (user host path : List Char)
    (hu2 : ∀ c ∈ user, isScpUserChar c = true)
    (hh2 : ∀ c ∈ host, isScpHostChar c = true) (hp : ∀ c ∈ path, isPlainChar c = true) :
    Parse ("ssh://".toList ++ user ++ "@".toList ++ host ++ "/".toList ++ path) =
      .ok { Scheme := "ssh".toList, User := some (User user), Host := host,
            Path := "/".toList ++ path } := by
  have hu3 : ∀ c ∈ user, isScpHostChar c = true := fun c hc => userChar_hostChar c (hu2 c hc)
  have e : "ssh://".toList ++ user ++ "@".toList ++ host ++ "/".toList ++ path =
      "ssh:".toList ++ ('/' :: '/' :: ((user ++ '@' :: host) ++ '/' :: path)) := by simp
  have hX : ∀ c ∈ (user ++ '@' :: host) ++ '/' :: path, isPlainChar c = true ∨ c = '@' := by
    intro c hc
    simp only [List.mem_append, List.mem_cons] at hc
    rcases hc with (hc | hc | hc) | hc | hc
    · simp [isPlainChar, hu3 c hc]
    · exact Or.inr hc
    · simp [isPlainChar, hh2 c hc]
    · subst hc; exact Or.inl (by decide)
    · exact Or.inl (hp c hc)
  have hraw : ∀ c ∈ "ssh:".toList ++ ('/' :: '/' :: ((user ++ '@' :: host) ++ '/' :: path)),
      isPlainChar c = true ∨ c = '@' ∨ c = ':' := by
    intro c hc
    simp only [String.toList, List.cons_append, List.nil_append, List.mem_cons] at hc
    rcases hc with hc | hc | hc | hc | hc | hc | hc
    · subst hc; decide
    · subst hc; decide
    · subst hc; decide
    · subst hc; decide
    · subst hc; decide
    · subst hc; decide
    · rcases hX c hc with h | h
      · exact Or.inl h
      · exact Or.inr (Or.inl h)
  rw [e]
  generalize hr : "ssh:".toList ++ ('/' :: '/' :: ((user ++ '@' :: host) ++ '/' :: path)) = raw
    at hraw
  have nm : ∀ x, isPlainChar x = false → x ≠ '@' → x ≠ ':' → x ∉ raw := by
    intro x hx hx2 hx3 hm
    rcases hraw x hm with h | h | h
    · rw [h] at hx; cases hx
    · exact hx2 h
    · exact hx3 h
  have nmX : ∀ x, isPlainChar x = false → x ≠ '@' → x ∉ (user ++ '@' :: host) ++ '/' :: path := by
    intro x hx hx2 hm
    rcases hX x hm with h | h
    · rw [h] at hx; cases hx
    · exact hx2 h
  have s1 : split raw '#' true = (raw, []) :=
    split_not_mem _ _ _ (nm _ (by decide) (by decide) (by decide))
  have c1 : stringContainsCTLByte raw = false := by
    apply no_ctl_of_class
    intro c hc
    rcases hraw c hc with h | h | h
    · simp only [isPlainChar, Bool.or_eq_true, decide_eq_true_eq] at h
      rcases h with h1 | h1
      · exact hostChar_not_ctl c h1
      · subst h1; decide
    · subst h; decide
    · subst h; decide
  have c2 : raw ≠ ['*'] := by
    intro e; exact nm '*' (by decide) (by decide) (by decide) (by rw [e]; simp)
  have c3 : getScheme raw =
      .ok ("ssh".toList, '/' :: '/' :: ((user ++ '@' :: host) ++ '/' :: path)) := by
    subst hr; rfl
  have hsl : '/' ∉ user ++ '@' :: host := by
    intro h
    simp only [List.mem_append, List.mem_cons] at h
    rcases h with h | h | h
    · exact absurd (hu3 _ h) (by decide)
    · exact absurd h (by decide)
    · exact absurd (hh2 _ h) (by decide)
  have hp1 := parse_with_authority raw "ssh".toList (user ++ '@' :: host) path host
    (some (User user)) c1 c2 c3 (by decide) (by decide) (nmX _ (by decide) (by decide)) hsl
    (parseAuthority_user_host user host hu2 hh2) (not_mem_of_class _ _ hp _ (by decide))
  simp only [Parse, s1, hp1]
  rfl

/-- Segments over `[A-Za-z0-9_-]` joined by `/` give a string over `[a-zA-Z0-9._-]` and `/`. -/
theorem stringsJoin_plain (segs : List (List Char))
    (hs : ∀ seg ∈ segs, ∀ c ∈ seg, isRepoSegChar c = true) :
    ∀ c ∈ stringsJoin segs ['/'], isPlainChar c = true := by
  induction segs with
  | nil => simp [stringsJoin]
  | cons s rest ih =>
    have h1 : ∀ c ∈ s, isPlainChar c = true := fun c hc => by
      simp [isPlainChar, segChar_hostChar c (hs s (by simp) c hc)]
    have ih2 := ih (fun seg hseg => hs seg (List.mem_cons_of_mem _ hseg))
    cases rest with
    | nil => simpa [stringsJoin] using h1
    | cons s2 rest2 =>
      intro c hc
      simp only [stringsJoin, List.mem_append, List.mem_singleton] at hc
      rcases hc with (hc | hc) | hc
      · exact h1 c hc
      · subst hc; decide
      · exact ih2 c hc

end ParserLemmas

/-! ## `ParseURL` -/

/-- `ParseURL` on `user@host:path`, whatever the generic parser. -/
theorem ParseURLWith_scp (Parse : List Char → Except Error URL) (user host path : List Char)
    (hu1 : user ≠ []) (hu2 : ∀ c ∈ user, isScpUserChar c = true)
    (hh1 : host ≠ []) (hh2 : ∀ c ∈ host, isScpHostChar c = true)
    (hp : '\n' ∉ path) :
    ParseURLWith Parse (user ++ "@".toList ++ host ++ ":".toList ++ path) =
      .ok { Scheme := "ssh".toList, User := some (User user), Host := host, Path := path } := by
  simp only [ParseURLWith, scpSyntax_match user host path hu1 hu2 hh1 hh2 hp]
  simp [hh1]

/-- `ParseURL` on a parsed URL that needs no `ssh` normalisation. -/
theorem ParseURLWith_of_ok (Parse : List Char → Except Error URL) (raw : List Char) (u : URL)
    (hscp : scpSyntax raw = none) (hparse : Parse raw = .ok u)
    (hne : ¬ (u.Host = [] ∧ u.Path = [])) (h1 : u.Scheme ≠ "git+ssh".toList)
    (h2 : ¬ (u.Scheme = "ssh".toList ∧ u.User = none)) :
    ParseURLWith Parse raw =
      .ok (if u.Scheme = [] then { u with Scheme := "https".toList } else u) := by
  simp only [ParseURLWith, hscp, hparse, if_neg hne, if_neg h1, if_neg h2]

/-! # The claims -/

/-! ## URL normalisation -/

/-- C1, as amended: for a non-empty `user` over `[A-Za-z0-9_]`, a non-empty
`host` over `[A-Za-z0-9._-]` and a `path` without a line feed, `ParseURL` of
`user@host:path` is the URL with scheme `ssh`, user `user` without password,
host `host` and path `path`, whatever the generic URL parser would answer: the
parser is not consulted.  In particular `git@github.com:user/repo` gives
scheme `ssh`, user `git`, host `github.com`, path `user/repo`. -/
theorem ParseURL_scp (Parse : List Char → Except Error URL) (user host path : List Char)
    (hu1 : user ≠ []) (hu2 : ∀ c ∈ user, isScpUserChar c = true)
    (hh1 : host ≠ []) (hh2 : ∀ c ∈ host, isScpHostChar c = true)
    (hp : '\n' ∉ path) :
    ParseURLWith Parse (user ++ "@".toList ++ host ++ ":".toList ++ path) =
        .ok { Scheme := "ssh".toList, User := some (User user), Host := host, Path := path } ∧
    ParseURL "git@github.com:user/repo".toList =
        .ok { Scheme := "ssh".toList, User := some (User "git".toList),
              Host := "github.com".toList, Path := "user/repo".toList } :=
  ⟨ParseURLWith_scp Parse user host path hu1 hu2 hh1 hh2 hp, by decide⟩

/-- C1 at `git@example.org:a/b.git`, with a generic parser that rejects every
input: the result is the ssh URL all the same. -/
theorem ParseURL_scp_witness :
    ParseURLWith (fun _ => .error (.new "unused"))
        ("git".toList ++ "@".toList ++ "example.org".toList ++ ":".toList ++ "a/b.git".toList) =
      .ok { Scheme := "ssh".toList, User := some (User "git".toList),
            Host := "example.org".toList, Path := "a/b.git".toList } :=
  (ParseURL_scp (fun _ => .error (.new "unused")) "git".toList "example.org".toList
    "a/b.git".toList (by decide) (by decide) (by decide) (by decide) (by decide)).1

/-- C1 as stated fails when the path holds a line feed: `.` of `scpSyntax` does
not match it, the address goes to the generic parser, which rejects the control
character, and `ParseURL` returns an error. -/
theorem ParseURL_scp_newline_counterexample :
    "git".toList ≠ [] ∧ (∀ c ∈ "git".toList, isScpUserChar c = true) ∧
    "github.com".toList ≠ [] ∧ (∀ c ∈ "github.com".toList, isScpHostChar c = true) ∧
    scpSyntax ("git".toList ++ "@".toList ++ "github.com".toList ++ ":".toList ++
        "user\nrepo".toList) = none ∧
    ParseURL ("git".toList ++ "@".toList ++ "github.com".toList ++ ":".toList ++
        "user\nrepo".toList) =
      .error (.wrap (.url "git@github.com:user\nrepo".toList .controlChar)
        "Failed parsing URL") := by decide

/-- C2: for an address that does not match `scpSyntax`, `ParseURL` returns an
error exactly when the generic parser returns one or returns a URL whose host
and path are both empty; the first error is the parser's error wrapped as
"Failed parsing URL", the second is "Parsed URL is empty"; in every other case
`ParseURL` returns a URL.  `ParseURL("")` and `ParseURL("://")` both fail. -/
theorem ParseURL_generic_errors (Parse : List Char → Except Error URL) (rawURL : List Char)
    (hscp : scpSyntax rawURL = none) :
    ((∃ e, ParseURLWith Parse rawURL = .error e) ↔
      ((∃ e, Parse rawURL = .error e) ∨
        ∃ u, Parse rawURL = .ok u ∧ u.Host = [] ∧ u.Path = [])) ∧
    (∀ e, Parse rawURL = .error e →
      ParseURLWith Parse rawURL = .error (.wrap e "Failed parsing URL")) ∧
    (∀ u, Parse rawURL = .ok u → u.Host = [] ∧ u.Path = [] →
      ParseURLWith Parse rawURL = .error (.new "Parsed URL is empty")) ∧
    (∀ u, Parse rawURL = .ok u → ¬ (u.Host = [] ∧ u.Path = []) →
      ∃ u2, ParseURLWith Parse rawURL = .ok u2) ∧
    ParseURL "".toList = .error (.new "Parsed URL is empty") ∧
    ParseURL "://".toList =
      .error (.wrap (.url "://".toList .missingScheme) "Failed parsing URL") := by
  have h2 : ∀ e, Parse rawURL = .error e →
      ParseURLWith Parse rawURL = .error (.wrap e "Failed parsing URL") := by
    intro e he; simp [ParseURLWith, hscp, he]
  have h3 : ∀ u, Parse rawURL = .ok u → u.Host = [] ∧ u.Path = [] →
      ParseURLWith Parse rawURL = .error (.new "Parsed URL is empty") := by
    intro u hu hempty; simp [ParseURLWith, hscp, hu, hempty]
  have h4 : ∀ u, Parse rawURL = .ok u → ¬ (u.Host = [] ∧ u.Path = []) →
      ∃ u2, ParseURLWith Parse rawURL = .ok u2 := by
    intro u hu hne
    simp only [ParseURLWith, hscp, hu, if_neg hne]
    exact ⟨_, rfl⟩
  refine ⟨?_, h2, h3, h4, by decide, by decide⟩
  constructor
  · rintro ⟨e, he⟩
    cases hp : Parse rawURL with
    | error e2 => exact Or.inl ⟨e2, rfl⟩
    | ok u =>
      by_cases hempty : u.Host = [] ∧ u.Path = []
      · exact Or.inr ⟨u, rfl, hempty⟩
      · obtain ⟨u2, hu2⟩ := h4 u hp hempty
        rw [hu2] at he; cases he
  · rintro (⟨e, he⟩ | ⟨u, hu, hempty⟩)
    · exact ⟨_, h2 e he⟩
    · exact ⟨_, h3 u hu hempty⟩

/-- C2 at `http://[::1/`, which does not match `scpSyntax` and which
`url.Parse` rejects for its missing bracket: the error comes back wrapped. -/
theorem ParseURL_generic_errors_witness :
    scpSyntax "http://[::1/".toList = none ∧
    ParseURLWith urlpkg.Parse "http://[::1/".toList =
      .error (.wrap (.url "http://[::1/".toList .missingBracket) "Failed parsing URL") :=
  ⟨by decide, (ParseURL_generic_errors urlpkg.Parse "http://[::1/".toList (by decide)).2.1
    (.url "http://[::1/".toList .missingBracket) (by decide)⟩

/-- C3: for an address that does not match `scpSyntax` and that the generic
parser turns into a URL `u` whose host and path are not both empty, `ParseURL`
returns `u` with the scheme replaced by `normalScheme u.Scheme` and the user by
`normalUser u.Scheme u.User`; host, path and every other field are those of
`u`.  `ssh://host/path` gets the user `git`, `git+ssh://host/path` the scheme
`ssh` and the user `git`, and `github.com/user/repo` the scheme `https` and no
user. -/
theorem ParseURL_normalises (Parse : List Char → Except Error URL) (rawURL : List Char)
    (u : URL) (hscp : scpSyntax rawURL = none) (hparse : Parse rawURL = .ok u)
    (hne : ¬ (u.Host = [] ∧ u.Path = [])) :
    ParseURLWith Parse rawURL =
        .ok { u with Scheme := normalScheme u.Scheme, User := normalUser u.Scheme u.User } ∧
    ParseURL "ssh://host/path".toList =
        .ok { Scheme := "ssh".toList, User := some (User "git".toList),
              Host := "host".toList, Path := "/path".toList } ∧
    ParseURL "git+ssh://host/path".toList =
        .ok { Scheme := "ssh".toList, User := some (User "git".toList),
              Host := "host".toList, Path := "/path".toList } ∧
    ParseURL "github.com/user/repo".toList =
        .ok { Scheme := "https".toList, User := none,
              Host := [], Path := "github.com/user/repo".toList } := by
  refine ⟨?_, by decide, by decide, by decide⟩
  rcases u with ⟨s, o, usr, h, p, fq, q, fr⟩
  simp only [ParseURLWith, hscp, hparse, if_neg hne, normalScheme, normalUser]
  by_cases h1 : s = "git+ssh".toList
  · subst h1; cases usr <;> simp
  · by_cases h2 : s = "ssh".toList
    · subst h2; cases usr <;> simp
    · by_cases h3 : s = []
      · subst h3; cases usr <;> simp
      · simp only [String.toList] at h1 h2
        cases usr <;> simp [h1, h2, h3]

/-- C3 at `git+ssh://example.org:2222/a/b`: the scheme becomes `ssh`, the user
`git`, and the host keeps its port. -/
theorem ParseURL_normalises_witness :
    ParseURLWith urlpkg.Parse "git+ssh://example.org:2222/a/b".toList =
      .ok { Scheme := "ssh".toList, User := some (User "git".toList),
            Host := "example.org:2222".toList, Path := "/a/b".toList } :=
  (ParseURL_normalises urlpkg.Parse "git+ssh://example.org:2222/a/b".toList
    { Scheme := "git+ssh".toList, Host := "example.org:2222".toList, Path := "/a/b".toList }
    (by decide) (by decide) (by decide)).1

/-! ## Path derivation -/

/-- C4: for a host `h` without a colon, any `port` and any other fields,
`URLToPath` gives the same path for the host `h:port` as for the host `h`.
Host `example.com:22` with path `/user/repo.git` gives
`example.com/user/repo`. -/
theorem URLToPath_drops_port (url : URL) (h port : List Char) (hc : ':' ∉ h) :
    URLToPath { url with Host := h ++ ":".toList ++ port } = URLToPath { url with Host := h } ∧
    URLToPath { Host := "example.com:22".toList, Path := "/user/repo.git".toList } =
      "example.com/user/repo".toList := by
  refine ⟨?_, by decide⟩
  simp only [URLToPath]
  rw [Split_colon_port h port hc, Split_colon_none h hc]

/-- C4 at host `example.com`, port `8022`. -/
theorem URLToPath_drops_port_witness :
    ':' ∉ "example.com".toList ∧
    URLToPath { Host := "example.com".toList ++ ":".toList ++ "8022".toList,
                Path := "/user/repo".toList } =
      URLToPath { Host := "example.com".toList, Path := "/user/repo".toList } :=
  ⟨by decide, (URLToPath_drops_port { Path := "/user/repo".toList } "example.com".toList
    "8022".toList (by decide)).1⟩

/-- C5, as amended: let `t` be the joined path (`path.Join` of the host up to
its first colon and of the path) with one trailing `.git` removed.  The path
returned by `URLToPath` ends with `.git` exactly when `t` ends with the bytes
`.`, `g`, `i`, `t` in this order with nothing but `~` between them and after
them; for every other URL, tildes elsewhere included, the result has no
trailing `.git`. -/
theorem URLToPath_git_suffix_once (url : URL) :
    HasSuffix (URLToPath url) ".git".toList = true ↔
      ∃ a t1 t2 t3 t4 : List Char, (∀ c ∈ t1 ++ t2 ++ t3 ++ t4, c = '~') ∧
        TrimSuffix (Join [(Split url.Host ":".toList).headD [], url.Path]) ".git".toList =
          a ++ ".".toList ++ t1 ++ "g".toList ++ t2 ++ "i".toList ++ t3 ++ "t".toList ++ t4 := by
  rw [URLToPath_eq]
  exact filter_git_suffix_iff _

/-- C5, as amended, at host `host` and path `/~user/repo.git`: the joined path
without its `.git` is `host/~user/repo`, which has no such tail, so the result,
`host/user/repo`, does not end with `.git` although the URL holds a tilde. -/
theorem URLToPath_git_suffix_once_witness :
    hasGitTail (TrimSuffix (Join [(Split "host".toList ":".toList).headD [],
      "/~user/repo.git".toList]) ".git".toList) = false ∧
    HasSuffix (URLToPath { Host := "host".toList, Path := "/~user/repo.git".toList })
      ".git".toList = false ∧
    URLToPath { Host := "host".toList, Path := "/~user/repo.git".toList } =
      "host/user/repo".toList := by
  refine ⟨by decide, ?_, by decide⟩
  cases hs : HasSuffix (URLToPath { Host := "host".toList, Path := "/~user/repo.git".toList })
      ".git".toList with
  | false => rfl
  | true =>
    obtain ⟨a, t1, t2, t3, t4, ht, he⟩ :=
      (URLToPath_git_suffix_once { Host := "host".toList, Path := "/~user/repo.git".toList }).mp hs
    have h1 := hasGitTail_of_spaced a t1 t2 t3 t4 ht
    rw [← he] at h1
    exact absurd h1 (by decide)

/-- C5 as stated fails: the path `/user/repo.git.git` loses only one `.git`,
and in `/user/repo.g~it` the suffix appears once the tilde is deleted, after the
suffix was looked for; both results end with `.git`. -/
theorem URLToPath_git_suffix_counterexample :
    URLToPath { Host := "github.com".toList, Path := "/user/repo.git.git".toList } =
      "github.com/user/repo.git".toList ∧
    HasSuffix (URLToPath { Host := "github.com".toList, Path := "/user/repo.git.git".toList })
      ".git".toList = true ∧
    URLToPath { Host := "github.com".toList, Path := "/user/repo.g~it".toList } =
      "github.com/user/repo.git".toList ∧
    HasSuffix (URLToPath { Host := "github.com".toList, Path := "/user/repo.g~it".toList })
      ".git".toList = true := by decide

/-- C6: the path returned by `URLToPath` holds no `~`, whatever the host and
the path of the URL. -/
theorem URLToPath_no_tilde (url : URL) : '~' ∉ URLToPath url := by
  rw [URLToPath_eq]; simp [List.mem_filter]

/-! ## One repository, one local path -/

/-- C7: for a non-empty `user` over `[A-Za-z0-9_]`, a non-empty `host` over
`[A-Za-z0-9._-]` and a path made of one or more non-empty segments over
`[A-Za-z0-9_-]` joined by `/`, `ParseURL` accepts the four addresses
`user@host:path`, `https://host/path`, `ssh://user@host/path` and `host/path`,
returning the URLs displayed, and `URLToPath` maps the four URLs to one and the
same string.  The four addresses of `github.com/user/repo` all give the path
`github.com/user/repo`. -/
theorem same_local_path (user host : List Char) (segs : List (List Char))
    (hu1 : user ≠ []) (hu2 : ∀ c ∈ user, isScpUserChar c = true)
    (hh1 : host ≠ []) (hh2 : ∀ c ∈ host, isScpHostChar c = true)
    (_hs1 : segs ≠ []) (hs2 : ∀ seg ∈ segs, seg ≠ [] ∧ ∀ c ∈ seg, isRepoSegChar c = true) :
    (ParseURL (user ++ "@".toList ++ host ++ ":".toList ++ stringsJoin segs "/".toList) =
      .ok { Scheme := "ssh".toList, User := some (User user), Host := host,
            Path := stringsJoin segs "/".toList } ∧
    ParseURL ("https://".toList ++ host ++ "/".toList ++ stringsJoin segs "/".toList) =
      .ok { Scheme := "https".toList, Host := host,
            Path := "/".toList ++ stringsJoin segs "/".toList } ∧
    ParseURL ("ssh://".toList ++ user ++ "@".toList ++ host ++ "/".toList ++
        stringsJoin segs "/".toList) =
      .ok { Scheme := "ssh".toList, User := some (User user), Host := host,
            Path := "/".toList ++ stringsJoin segs "/".toList } ∧
    ParseURL (host ++ "/".toList ++ stringsJoin segs "/".toList) =
      .ok { Scheme := "https".toList,
            Path := host ++ "/".toList ++ stringsJoin segs "/".toList } ∧
    URLToPath { Scheme := "https".toList, Host := host,
                Path := "/".toList ++ stringsJoin segs "/".toList } =
      URLToPath { Scheme := "ssh".toList, User := some (User user), Host := host,
                  Path := stringsJoin segs "/".toList } ∧
    URLToPath { Scheme := "ssh".toList, User := some (User user), Host := host,
                Path := "/".toList ++ stringsJoin segs "/".toList } =
      URLToPath { Scheme := "ssh".toList, User := some (User user), Host := host,
                  Path := stringsJoin segs "/".toList } ∧
    URLToPath { Scheme := "https".toList,
                Path := host ++ "/".toList ++ stringsJoin segs "/".toList } =
      URLToPath { Scheme := "ssh".toList, User := some (User user), Host := host,
                  Path := stringsJoin segs "/".toList }) ∧
    (ParseURL "git@github.com:user/repo".toList).map URLToPath =
      .ok "github.com/user/repo".toList ∧
    (ParseURL "https://github.com/user/repo".toList).map URLToPath =
      .ok "github.com/user/repo".toList ∧
    (ParseURL "ssh://git@github.com/user/repo".toList).map URLToPath =
      .ok "github.com/user/repo".toList ∧
    (ParseURL "github.com/user/repo".toList).map URLToPath =
      .ok "github.com/user/repo".toList := by
  refine ⟨?_, by decide, by decide, by decide, by decide⟩
  have hp : ∀ c ∈ stringsJoin segs "/".toList, isPlainChar c = true :=
    stringsJoin_plain segs (fun seg hseg => (hs2 seg hseg).2)
  generalize stringsJoin segs "/".toList = path at hp ⊢
  have hsl : '/' ∉ host := not_mem_of_class _ _ hh2 _ (by decide)
  have hcol : ':' ∉ host := not_mem_of_class _ _ hh2 _ (by decide)
  have hsplit : (Split host ":".toList).headD [] = host := Split_colon_none host hcol
  have hraw4 : ∀ c ∈ host ++ "/".toList ++ path, isPlainChar c = true := by
    intro c hc
    simp only [String.toList, List.append_assoc, List.singleton_append, List.mem_append,
      List.mem_cons] at hc
    rcases hc with hc | hc | hc
    · simp [isPlainChar, hh2 c hc]
    · subst hc; decide
    · exact hp c hc
  have hat2 : '@' ∉ "https://".toList ++ host ++ "/".toList ++ path := by
    intro h
    rw [List.append_assoc, List.append_assoc, List.mem_append] at h
    rcases h with h | h
    · exact absurd h (by decide)
    · exact not_mem_of_class _ _ hraw4 '@' (by decide) (by simpa using h)
  refine ⟨?_, ?_, ?_, ?_, ?_, ?_, ?_⟩
  · exact ParseURLWith_scp urlpkg.Parse user host path hu1 hu2 hh1 hh2
      (not_mem_of_class _ _ hp _ (by decide))
  · rw [ParseURL, ParseURLWith_of_ok urlpkg.Parse _
      { Scheme := "https".toList, Host := host, Path := "/".toList ++ path }
      (scpSyntax_none_of_no_at _ hat2)
      (Parse_https host path hh2 hp) (by simp [hh1]) (by simp) (by simp)]
    rfl
  · rw [ParseURL, ParseURLWith_of_ok urlpkg.Parse _
      { Scheme := "ssh".toList, User := some (User user), Host := host,
        Path := "/".toList ++ path }
      (by simpa using scpSyntax_ssh_url (user ++ "@".toList ++ host ++ "/".toList ++ path))
      (Parse_ssh user host path hu2 hh2 hp) (by simp [hh1]) (by simp) (by simp)]
    rfl
  · rw [ParseURL, ParseURLWith_of_ok urlpkg.Parse _
      { Path := host ++ "/".toList ++ path }
      (scpSyntax_none_of_no_at _ (not_mem_of_class _ _ hraw4 _ (by decide)))
      (Parse_schemeless host path hh1 hh2 hp) (by simp [hh1]) (by simp) (by simp)]
    rfl
  · apply URLToPath_congr
    simp only [hsplit]
    simp only [String.toList, List.singleton_append]
    rw [Join_host_path _ _ hh1, Join_host_path _ _ hh1, Clean_double_slash host path hh1 hsl]
  · apply URLToPath_congr
    simp only [hsplit]
    simp only [String.toList, List.singleton_append]
    rw [Join_host_path _ _ hh1, Join_host_path _ _ hh1, Clean_double_slash host path hh1 hsl]
  · apply URLToPath_congr
    simp only [hsplit]
    rw [Join_host_path _ _ hh1]
    have : (Split ([] : List Char) ":".toList).headD [] = [] := rfl
    rw [this, Join_path_only _ (by simp [hh1])]
    simp

/-- C7 at user `deploy`, host `git.example-host.org` and path
`team_a/sub-group/repo`: the three URL forms give the path of the SCP-like
form. -/
theorem same_local_path_witness :
    URLToPath { Scheme := "https".toList, Host := "git.example-host.org".toList,
                Path := "/".toList ++ stringsJoin
                  ["team_a".toList, "sub-group".toList, "repo".toList] "/".toList } =
      URLToPath { Scheme := "ssh".toList, User := some (User "deploy".toList),
                  Host := "git.example-host.org".toList,
                  Path := stringsJoin
                    ["team_a".toList, "sub-group".toList, "repo".toList] "/".toList } :=
  (same_local_path "deploy".toList "git.example-host.org".toList
    ["team_a".toList, "sub-group".toList, "repo".toList]
    (by decide) (by decide) (by decide) (by decide) (by decide) (by decide)).1.2.2.2.2.1

/-! ## The repository handle -/

section RepoTheorems

variable {Repository RepoStatus Remote : Type}

/-- When every remote before `name` is looked up and fetched without error and
the fetch of `name` fails, the loop of `Fetch` stops right there. -/
theorem fetchRemotes_fail (E : Engine Repository RepoStatus Remote) (repo : Repository)
    (before : List (List Char)) (name : List Char) (after : List (List Char))
    (remote : Remote) (e : Error)
    (hb : ∀ n ∈ before, ∃ rm, E.RemotesLookup repo n = .ok rm ∧ E.RemoteFetch rm = none)
    (hl : E.RemotesLookup repo name = .ok remote) (hf : E.RemoteFetch remote = some e) :
    fetchRemotes E repo (before ++ name :: after) =
      (some (.wrap e "Failed fetching remote"), attempts repo (before ++ [name])) := by
  induction before with
  | nil => simp [fetchRemotes, hl, hf, attempts]
  | cons b bs ih =>
    obtain ⟨rm, h1, h2⟩ := hb b (by simp)
    have ih2 := ih (fun n hn => hb n (by simp [hn]))
    simp [fetchRemotes, h1, h2, ih2, attempts]

/-- The loop of `Fetch` ends without error exactly when every remote is looked
up and fetched without error. -/
theorem fetchRemotes_none (E : Engine Repository RepoStatus Remote) (repo : Repository)
    (names : List (List Char)) :
    (fetchRemotes E repo names).1 = none ↔
      ∀ n ∈ names, ∃ rm, E.RemotesLookup repo n = .ok rm ∧ E.RemoteFetch rm = none := by
  induction names with
  | nil => simp [fetchRemotes]
  | cons b bs ih =>
    simp only [fetchRemotes, List.mem_cons, forall_eq_or_imp]
    cases h1 : E.RemotesLookup repo b with
    | error e => simp
    | ok rm =>
      cases h2 : E.RemoteFetch rm with
      | some e => simp [h2]
      | none => simp [h2, ih]

/-- When every remote before `name` is looked up and fetched without error and
the look-up of `name` fails, the loop of `Fetch` stops right there. -/
theorem fetchRemotes_lookup_fail (E : Engine Repository RepoStatus Remote) (repo : Repository)
    (before : List (List Char)) (name : List Char) (after : List (List Char)) (e : Error)
    (hb : ∀ n ∈ before, ∃ rm, E.RemotesLookup repo n = .ok rm ∧ E.RemoteFetch rm = none)
    (hl : E.RemotesLookup repo name = .error e) :
    fetchRemotes E repo (before ++ name :: after) =
      (some (.wrap e "Failed looking up remote"),
        attempts repo before ++ [.remotesLookup repo name]) := by
  induction before with
  | nil => simp [fetchRemotes, hl, attempts]
  | cons b bs ih =>
    obtain ⟨rm, h1, h2⟩ := hb b (by simp)
    have ih2 := ih (fun n hn => hb n (by simp [hn]))
    simp [fetchRemotes, h1, h2, ih2, attempts]

/-- When every remote is looked up and fetched without error, the loop of
`Fetch` makes these calls, in the order of the list, and no other. -/
theorem fetchRemotes_ok_calls (E : Engine Repository RepoStatus Remote) (repo : Repository)
    (names : List (List Char))
    (h : ∀ n ∈ names, ∃ rm, E.RemotesLookup repo n = .ok rm ∧ E.RemoteFetch rm = none) :
    (fetchRemotes E repo names).2 = attempts repo names := by
  induction names with
  | nil => simp [fetchRemotes, attempts]
  | cons b bs ih =>
    obtain ⟨rm, h1, h2⟩ := h b (by simp)
    have ih2 := ih (fun n hn => h n (by simp [hn]))
    simp [fetchRemotes, h1, h2, ih2, attempts]

/-- C8: `Reload` replaces the snapshot by the loader's snapshot when the loader
succeeds and returns no error; when the loader fails with `e` it returns exactly
`e` and leaves the handle, snapshot included, as it was.  The engine handle is
the same afterwards in both cases. -/
theorem Reload_atomic (E : Engine Repository RepoStatus Remote)
    (r : Repo Repository RepoStatus) :
    (∀ s, E.loadStatus r.repo = .ok s →
      (Reload E r).value.2 = none ∧ (Reload E r).value.1.Status = s) ∧
    (∀ e, E.loadStatus r.repo = .error e →
      (Reload E r).value.2 = some e ∧ (Reload E r).value.1.Status = r.Status) ∧
    (Reload E r).value.1.repo = r.repo := by
  refine ⟨?_, ?_, ?_⟩
  · intro s hs; simp [Reload, hs]
  · intro e he; simp [Reload, he]
  · unfold Reload; cases E.loadStatus r.repo <;> rfl

/-- C9: `Fetch` never changes the handle.  When listing the remotes fails it
returns that error wrapped as "Failed listing remoteNames" and makes no other
call.  When the remotes before `name` are fetched without error and the fetch of
`name` fails with `e`, it returns `e` wrapped as "Failed fetching remote" and the
calls it made are the listing followed by a look-up and a fetch for each remote
up to `name`, in the order of the list, none for the remotes after it.  When
every remote is looked up and fetched without error it returns no error and
the calls it made are the listing followed by a look-up and a fetch for every
remote, in the order of the list.  It returns no error exactly when the listing
succeeds and every remote is looked up and fetched without error.  (An engine
whose look-up of `name` fails makes `Fetch` stop in the same way, with that
error wrapped as "Failed looking up remote".) -/
theorem Fetch_fail_fast (E : Engine Repository RepoStatus Remote)
    (r : Repo Repository RepoStatus) :
    (Fetch E r).value.1 = r ∧
    (∀ e, E.RemotesList r.repo = .error e →
      (Fetch E r).value.2 = some (.wrap e "Failed listing remoteNames") ∧
      (Fetch E r).calls = [.remotesList r.repo]) ∧
    (∀ (before : List (List Char)) (name : List Char) (after : List (List Char))
        (remote : Remote) (e : Error),
      E.RemotesList r.repo = .ok (before ++ name :: after) →
      (∀ n ∈ before, ∃ rm, E.RemotesLookup r.repo n = .ok rm ∧ E.RemoteFetch rm = none) →
      E.RemotesLookup r.repo name = .ok remote → E.RemoteFetch remote = some e →
      (Fetch E r).value.2 = some (.wrap e "Failed fetching remote") ∧
      (Fetch E r).calls = .remotesList r.repo :: attempts r.repo (before ++ [name])) ∧
    (∀ names : List (List Char), E.RemotesList r.repo = .ok names →
      (∀ n ∈ names, ∃ rm, E.RemotesLookup r.repo n = .ok rm ∧ E.RemoteFetch rm = none) →
      (Fetch E r).value.2 = none ∧
      (Fetch E r).calls = .remotesList r.repo :: attempts r.repo names) ∧
    (∀ (before : List (List Char)) (name : List Char) (after : List (List Char)) (e : Error),
      E.RemotesList r.repo = .ok (before ++ name :: after) →
      (∀ n ∈ before, ∃ rm, E.RemotesLookup r.repo n = .ok rm ∧ E.RemoteFetch rm = none) →
      E.RemotesLookup r.repo name = .error e →
      (Fetch E r).value.2 = some (.wrap e "Failed looking up remote") ∧
      (Fetch E r).calls =
        .remotesList r.repo :: (attempts r.repo before ++ [.remotesLookup r.repo name])) ∧
    ((Fetch E r).value.2 = none ↔
      ∃ names, E.RemotesList r.repo = .ok names ∧
        ∀ n ∈ names, ∃ rm, E.RemotesLookup r.repo n = .ok rm ∧ E.RemoteFetch rm = none) := by
  refine ⟨?_, ?_, ?_, ?_, ?_, ?_⟩
  · unfold Fetch; cases E.RemotesList r.repo <;> rfl
  · intro e he; simp [Fetch, he]
  · intro before name after remote e hlist hb hl hf
    simp [Fetch, hlist, fetchRemotes_fail E r.repo before name after remote e hb hl hf]
  · intro names hlist hall
    simp only [Fetch, hlist, fetchRemotes_ok_calls E r.repo names hall,
      (fetchRemotes_none E r.repo names).mpr hall, and_self]
  · intro before name after e hlist hb hl
    simp [Fetch, hlist, fetchRemotes_lookup_fail E r.repo before name after e hb hl]
  · cases hlist : E.RemotesList r.repo with
    | error e => simp [Fetch, hlist]
    | ok names => simp [Fetch, hlist, fetchRemotes_none]

/-- C10: `OpenRepo` returns a handle exactly when the engine opens the
repository and the loader then succeeds, and the handle holds the repository
and the loader's snapshot.  When the engine fails with `e` the result is `e`
wrapped as "Failed opening repo" and the loader is not called; when the loader
fails the result is the loader's error itself. -/
theorem OpenRepo_loaded (E : Engine Repository RepoStatus Remote) (path : List Char) :
    ((∃ h, (OpenRepo E path).value = .ok h) ↔
      ∃ g s, E.OpenRepository path = .ok g ∧ E.loadStatus g = .ok s) ∧
    (∀ g s, E.OpenRepository path = .ok g → E.loadStatus g = .ok s →
      (OpenRepo E path).value = .ok { repo := g, Status := s }) ∧
    (∀ e, E.OpenRepository path = .error e →
      (OpenRepo E path).value = .error (.wrap e "Failed opening repo") ∧
      (OpenRepo E path).calls = [.openRepository path]) ∧
    (∀ g e, E.OpenRepository path = .ok g → E.loadStatus g = .error e →
      (OpenRepo E path).value = .error e) := by
  refine ⟨?_, ?_, ?_, ?_⟩
  · cases ho : E.OpenRepository path with
    | error e => simp [OpenRepo, ho]
    | ok g =>
      cases hs : E.loadStatus g with
      | error e => simp [OpenRepo, ho, hs]
      | ok s => simp [OpenRepo, ho, hs]
  · intro g s ho hs; simp [OpenRepo, ho, hs]
  · intro e ho; simp [OpenRepo, ho]
  · intro g e ho hs; simp [OpenRepo, ho, hs]

end RepoTheorems

/-- C8 on a concrete handle: a failing loader leaves snapshot 5 in place and its
error comes back unchanged. -/
theorem Reload_atomic_witness :
    (twoRemotes (.error (.engine 9))).loadStatus () = .error (.engine 9) ∧
    (Reload (twoRemotes (.error (.engine 9))) { repo := (), Status := 5 }).value.2 =
      some (.engine 9) ∧
    (Reload (twoRemotes (.error (.engine 9))) { repo := (), Status := 5 }).value.1.Status = 5 :=
  ⟨rfl, (Reload_atomic (twoRemotes (.error (.engine 9))) { repo := (), Status := 5 }).2.1
    (.engine 9) rfl⟩

/-- C9 on two remotes.  When the fetch of the first one fails, `Fetch` returns
that error wrapped, the second remote is neither looked up nor fetched, and the
snapshot is still 5.  When both fetches succeed, `Fetch` returns no error after
looking up and fetching `origin`, then `upstream`, and the snapshot is still 5. -/
theorem Fetch_fail_fast_witness :
    ((Fetch (twoRemotes (.ok 6)) { repo := (), Status := 5 }).value.2 =
      some (.wrap (.engine 7) "Failed fetching remote") ∧
    (Fetch (twoRemotes (.ok 6)) { repo := (), Status := 5 }).calls =
      [.remotesList (), .remotesLookup () "origin".toList, .remoteFetch "origin".toList]) ∧
    (Fetch (twoRemotes (.ok 6)) { repo := (), Status := 5 }).value.1.Status = 5 ∧
    ((Fetch quietRemotes { repo := (), Status := 5 }).value.2 = none ∧
    (Fetch quietRemotes { repo := (), Status := 5 }).calls =
      [.remotesList (), .remotesLookup () "origin".toList, .remoteFetch "origin".toList,
        .remotesLookup () "upstream".toList, .remoteFetch "upstream".toList]) ∧
    (Fetch quietRemotes { repo := (), Status := 5 }).value.1.Status = 5 :=
  ⟨(Fetch_fail_fast (twoRemotes (.ok 6)) { repo := (), Status := 5 }).2.2.1
      [] "origin".toList ["upstream".toList] "origin".toList (.engine 7) rfl
      (by simp) rfl rfl,
    congrArg Repo.Status (Fetch_fail_fast (twoRemotes (.ok 6)) { repo := (), Status := 5 }).1,
    (Fetch_fail_fast quietRemotes { repo := (), Status := 5 }).2.2.2.1
      ["origin".toList, "upstream".toList] rfl (fun n _ => ⟨n, rfl, rfl⟩),
    congrArg Repo.Status (Fetch_fail_fast quietRemotes { repo := (), Status := 5 }).1⟩

/-- C10 on a concrete engine: a path the engine cannot open gives the wrapped
engine error and a single call, the loader is not reached. -/
theorem OpenRepo_loaded_witness :
    (twoRemotes (.ok 6)).OpenRepository "/missing".toList = .error (.engine 3) ∧
    (OpenRepo (twoRemotes (.ok 6)) "/missing".toList).value =
      .error (.wrap (.engine 3) "Failed opening repo") ∧
    (OpenRepo (twoRemotes (.ok 6)) "/missing".toList).calls =
      [.openRepository "/missing".toList] :=
  ⟨rfl, (OpenRepo_loaded (twoRemotes (.ok 6)) "/missing".toList).2.2.1 (.engine 3) rfl⟩

end GitGet
